import Mathlib

/-!
Verification of the AGIROS_TOOLS packaging/orchestration tools.

This file shallowly embeds the queue store, track-descriptor resolution,
upstream-tag computation, fallback version search and batch orchestration
logic of the repository (files `agiros_tools_menu.py`,
`agiros_oob_builder_procedural.py`, `agiros-bloom/gbpconf_generator.py`,
`agiros-bloom/bloom/generators/agirosdebian/agirosdebian.py` and
`generate_cmd.py`) and proves or refutes the specified properties.

Modelling conventions:
* Python dictionaries are insertion-ordered association lists
  `List (String × _)`; dictionary reads take the first matching key and
  writes replace in place or append at the end, as CPython does.
* YAML/JSON scalars and containers are one inductive `PyVal`; Python
  truthiness, `str()` and `int()` are modelled explicitly on it.
* Filesystem path canonicalisation (`Path(...).expanduser().resolve()`
  followed by `str`) is an opaque environment function
  `canon : String → String`; theorems that need it assume it is
  idempotent and never returns the empty string, which holds of the real
  operation on a fixed filesystem.
* `str.strip()`, `str.startswith`, `str.endswith` and slicing are
  modelled at the character-list level (`pyStrip`, `pyStartsWith`, ...);
  `str.lower()` is per-character ASCII lowering (`pyLower`); all inputs
  in the theorems below are ASCII.
-/

namespace Agiros

/-- Python's `str.strip()` whitespace (ASCII part; non-ASCII whitespace
is not modelled, all theorem inputs are ASCII). -/
def pyWs (c : Char) : Bool :=
  c = ' ' || c = '\t' || c = '\n' || c = '\r' || c = '\x0b' || c = '\x0c'

/-- Python `s.strip()`: drop whitespace from both ends. -/
def pyStrip (s : String) : String :=
  String.mk (((s.toList.dropWhile pyWs).reverse.dropWhile pyWs).reverse)

/-- Python `s.startswith(pre)`. -/
def pyStartsWith (s pre : String) : Bool :=
  pre.toList.isPrefixOf s.toList

/-- Python `s.endswith(suf)`. -/
def pyEndsWith (s suf : String) : Bool :=
  suf.toList.reverse.isPrefixOf s.toList.reverse

/-- Python `s[:-1]`. -/
def pyDropLast (s : String) : String :=
  String.mk s.toList.dropLast

/-- Python `s.replace(a, b)` for single-character patterns (the only
form the source uses: `.replace(" ", "-")`). -/
def pyReplaceChar (s : String) (a b : Char) : String :=
  String.mk (s.toList.map (fun c => if c = a then b else c))

/-- Python `s.lower()` (ASCII). -/
def pyLower (s : String) : String :=
  String.mk (s.toList.map Char.toLower)

/-- Python substring test `needle in hay`. -/
def strContains (hay needle : String) : Bool :=
  (List.range (hay.toList.length + 1)).any
    (fun i => needle.toList.isPrefixOf (hay.toList.drop i))

/-- Read from an insertion-ordered dictionary (first matching key). -/
def alGet {α : Type} (m : List (String × α)) (k : String) : Option α :=
  (m.find? (fun kv => kv.1 == k)).map (·.2)

/-- `d[k] = v` on an insertion-ordered dictionary: replace in place if the
key exists, otherwise append at the end. -/
def alSet {α : Type} (m : List (String × α)) (k : String) (v : α) : List (String × α) :=
  if (m.find? (fun kv => kv.1 == k)).isSome then
    m.map (fun kv => if kv.1 == k then (kv.1, v) else kv)
  else
    m ++ [(k, v)]

/-- Python values as deserialised from YAML/JSON: strings, integers,
booleans, `None`, lists and (insertion-ordered) dictionaries. -/
inductive PyVal where
  | s (v : String)
  | i (v : Int)
  | b (v : Bool)
  | null
  | arr (xs : List PyVal)
  | obj (entries : List (String × PyVal))

/-- Python truthiness of a value. -/
def PyVal.truthy : PyVal → Bool
  | .s v => !(v == "")
  | .i v => !(v == 0)
  | .b v => v
  | .null => false
  | .arr xs => !xs.isEmpty
  | .obj es => !es.isEmpty

def PyVal.isDict : PyVal → Bool
  | .obj _ => true
  | _ => false

def PyVal.asDict : PyVal → Option (List (String × PyVal))
  | .obj es => some es
  | _ => none

/-- The single-quote character, used by the Python `repr` of strings. -/
def sq : String := String.singleton (Char.ofNat 39)

mutual
/-- Python `repr` of a value, as used by `str` on lists and dictionaries.
String escaping inside `repr` is not modelled (no theorem below ever
renders a list or dictionary). -/
def pyRepr : PyVal → String
  | .s v => sq ++ v ++ sq
  | .i v => toString v
  | .b true => "True"
  | .b false => "False"
  | .null => "None"
  | .arr xs => "[" ++ pyReprList xs ++ "]"
  | .obj es => "\x7b" ++ pyReprObj es ++ "\x7d"

def pyReprList : List PyVal → String
  | [] => ""
  | [x] => pyRepr x
  | x :: y :: xs => pyRepr x ++ ", " ++ pyReprList (y :: xs)

def pyReprObj : List (String × PyVal) → String
  | [] => ""
  | [kv] => sq ++ kv.1 ++ sq ++ ": " ++ pyRepr kv.2
  | kv :: kw :: es => sq ++ kv.1 ++ sq ++ ": " ++ pyRepr kv.2 ++ ", " ++ pyReprObj (kw :: es)
end

/-- Python `str()` of a value. -/
def pyStr : PyVal → String
  | .s v => v
  | .i v => toString v
  | .b true => "True"
  | .b false => "False"
  | .null => "None"
  | .arr xs => pyRepr (.arr xs)
  | .obj es => pyRepr (.obj es)

/-- Python `int(string)`: optional surrounding whitespace, optional sign,
then decimal digits (digit-group underscores are not modelled). `none`
models a raised `ValueError`. -/
def pyIntOfString (str : String) : Option Int :=
  let t := pyStrip str
  let core := if pyStartsWith t "-" || pyStartsWith t "+" then String.mk (t.toList.drop 1) else t
  let sign : Int := if pyStartsWith t "-" then -1 else 1
  if !core.toList.isEmpty && core.toList.all Char.isDigit then
    some (sign * (core.toList.foldl (fun acc c => acc * 10 + (c.toNat - 48)) (0 : Nat) : Nat))
  else
    none

/-- Python `int(value)` on a deserialised value: ints are themselves,
booleans are 0/1, strings are parsed; everything else raises (`none`). -/
def pyInt : PyVal → Option Int
  | .i v => some v
  | .b v => some (if v then 1 else 0)
  | .s v => pyIntOfString v
  | _ => none

/-! ## gbpconf_generator.py -/

/-- `_normalize_branch_name` (gbpconf_generator.py:82): strip, replace
spaces with hyphens, default to "upstream" when empty. -/
def normalizeBranchName (name : String) : String :=
  let n := pyReplaceChar (pyStrip name) ' ' '-'
  if n = "" then "upstream" else n

/-- A track section: one distro's release metadata, an insertion-ordered
mapping. -/
abbrev Section := List (String × PyVal)

/-- Python `section.get(k1) or section.get(k2)` (`or` falls through on a
falsy first operand, including a missing key). -/
def pyGetOr (d : Section) (k1 k2 : String) : Option PyVal :=
  match alGet d k1 with
  | some v => if v.truthy then some v else alGet d k2
  | none => alGet d k2

/-- The value when it is a string with non-whitespace content, else none
(the Python test `isinstance(x, str) and x.strip()`). -/
def nonBlankStr : Option PyVal → Option String
  | some (.s v) => if pyStrip v = "" then none else some v
  | _ => none

/-- `_extract_upstream_info`, upstream-branch part
(gbpconf_generator.py:110-118): `devel_branch`/`upstream-branch` if a
non-blank string, else `version` if a non-blank string not starting with
the placeholder marker `:\x7b`, else the literal "upstream"; the winning
value goes through `_normalize_branch_name`. -/
def upstreamBranchOf (sec : Section) : String :=
  let develBranch := pyGetOr sec "devel_branch" "upstream-branch"
  let version := alGet sec "version"
  match nonBlankStr develBranch with
  | some v => normalizeBranchName v
  | none =>
    match version with
    | some (.s v) =>
      if !(pyStrip v == "") && !pyStartsWith v ":\x7b" then normalizeBranchName v
      else "upstream"
    | _ => "upstream"

/-- `_extract_upstream_info`, tag-pattern part
(gbpconf_generator.py:120-137): `release.tags` if a non-blank string,
else legacy `release_tag`/`release-tag`, each stripped. -/
def tagPatternOf (sec : Section) : Option String :=
  let fromRelease : Option String :=
    match alGet sec "release" with
    | some (.obj rel) =>
      match alGet rel "tags" with
      | some (.s tp) => if pyStrip tp ≠ "" then some (pyStrip tp) else none
      | _ => none
    | _ => none
  match fromRelease with
  | some tp => some tp
  | none =>
    match pyGetOr sec "release_tag" "release-tag" with
    | some (.s legacy) => if pyStrip legacy ≠ "" then some (pyStrip legacy) else none
    | _ => none

/-- `_extract_upstream_info`, tree part (gbpconf_generator.py:129-131). -/
def treeValueOf (sec : Section) : Option String :=
  match alGet sec "release" with
  | some (.obj rel) =>
    match alGet rel "tree" with
    | some (.s tv) => if pyStrip tv ≠ "" then some (pyStrip tv) else none
    | _ => none
  | _ => none

/-- `_pick_distro_section` (gbpconf_generator.py:69-79): first an exact
case-insensitive key match (value must be a dict), then a substring
fallback (`key_lower in k.lower()`); `none` models the raised
`KeyError`. -/
def exactDictMatch (distro : String) (kv : String × PyVal) : Bool :=
  pyLower kv.1 == pyLower distro && kv.2.isDict

def subDictMatch (distro : String) (kv : String × PyVal) : Bool :=
  strContains (pyLower kv.1) (pyLower distro) && kv.2.isDict

def exactKeyMatch (distro : String) (kv : String × PyVal) : Bool :=
  pyLower kv.1 == pyLower distro

def subKeyMatch (distro : String) (kv : String × PyVal) : Bool :=
  strContains (pyLower kv.1) (pyLower distro)

def pickDistroSection (tracks : List (String × PyVal)) (distro : String) : Option Section :=
  match tracks.find? (exactDictMatch distro) with
  | some kv => kv.2.asDict
  | none =>
    match tracks.find? (subDictMatch distro) with
    | some kv => kv.2.asDict
    | none => none

/-- `_read_pkgxml_version` (gbpconf_generator.py:88-99). The input is the
text captured by the `<version>` regex when `package.xml` exists and the
pattern matches, else `none`; the result falls back to "0.0.0". -/
def readPkgxmlVersion (regexMatch : Option String) : String :=
  match regexMatch with
  | some m => pyStrip m
  | none => "0.0.0"

/-- `generate_gbp_conf`, release_inc resolution
(gbpconf_generator.py:233-237): `int(section["release_inc"])` with 1 for
a missing key or a failed conversion. -/
def releaseIncGen (sec : Section) : Int :=
  match alGet sec "release_inc" with
  | none => 1
  | some v =>
    match pyInt v with
    | some n => n
    | none => 1

/-- `generate_gbp_conf`, upstream-tag construction
(gbpconf_generator.py:233-247): always
`release/{distro}/{pkg}/{version}-{release_inc}`. -/
def gbpconfUpstreamTag (distro pkgName : String) (sec : Section) (regexMatch : Option String) : String :=
  let releaseInc := releaseIncGen sec
  let version := readPkgxmlVersion regexMatch
  "release/" ++ distro ++ "/" ++ pkgName ++ "/" ++ version ++ "-" ++ toString releaseInc

/-! ## agirosdebian.py / generate_cmd.py (the two files share these
functions verbatim) -/

/-- `_is_placeholder` (agirosdebian.py:43): a string starting with the
two-character marker `:\x7b`. -/
def isPlaceholder : PyVal → Bool
  | .s v => pyStartsWith v ":\x7b"
  | _ => false

/-- `_read_tracks`, section lookup (agirosdebian.py:208-214 and
generate_cmd.py:122-128): exact case-insensitive key match only, no
substring fallback; a falsy (empty) section also yields the empty
result. -/
def readTracksFindSection (tracks : List (String × PyVal)) (distroArg : String) : Option Section :=
  match tracks.find? (exactDictMatch distroArg) with
  | some kv =>
    match kv.2 with
    | .obj es => if es.isEmpty then none else some es
    | _ => none
  | none => none

/-- `_read_tracks`, release_inc extraction (agirosdebian.py:216-222):
ints/floats become their decimal string, strings are stripped, and the
value is kept only when truthy and not a placeholder. (Python booleans
are `int` instances, so `True`/`False` become "1"/"0".) -/
def readTracksReleaseInc (sec : Section) : Option PyVal :=
  let ri : Option PyVal :=
    match alGet sec "release_inc" with
    | some (.i v) => some (.s (toString v))
    | some (.b v) => some (.s (toString (if v then (1 : Int) else 0)))
    | some (.s v) => some (.s (pyStrip v))
    | other => other
  match ri with
  | some v => if v.truthy && !isPlaceholder v then some v else none
  | none => none

/-- `_read_tracks`, track_version extraction (agirosdebian.py:224-226):
kept (stripped) when a non-blank non-placeholder string. -/
def readTracksVersion (sec : Section) : Option String :=
  match alGet sec "version" with
  | some (.s v) =>
    if !(pyStrip v == "") && !isPlaceholder (.s v) then some (pyStrip v) else none
  | _ => none

/-- `_ensure_gbp_conf`, release_inc resolution (agirosdebian.py:157 and
generate_cmd.py:176): `values.get("release_inc") or "0"`. -/
def configSyncReleaseInc (sec : Section) : PyVal :=
  match readTracksReleaseInc sec with
  | some v => v
  | none => .s "0"

/-- Python `a or b` on an optional string and a string default. -/
def pyOrS (a : Option String) (b : String) : String :=
  match a with
  | some v => if v = "" then b else v
  | none => b

/-- `_ensure_gbp_conf`, version resolution (agirosdebian.py:158):
`_resolve_version(pkg_dir) or values.get("track_version") or "0.0.0"`.
`manifestVersion` is the version `parse_package` reports, `none` when
the manifest is unreadable. -/
def resolveVersion (manifestVersion : Option String) (sec : Section) : String :=
  pyOrS manifestVersion (pyOrS (readTracksVersion sec) "0.0.0")

/-- `_ensure_gbp_conf`, upstream-tag construction (agirosdebian.py:162
and generate_cmd.py:183):
`release/{ros_distro}/{pkg_name}/{version}-{release_inc}`. -/
def ensureGbpConfTag (rosDistro pkgName : String) (sec : Section) (manifestVersion : Option String) : String :=
  let releaseInc := configSyncReleaseInc sec
  let version := resolveVersion manifestVersion sec
  "release/" ++ rosDistro ++ "/" ++ pkgName ++ "/" ++ version ++ "-" ++ pyStr releaseInc

/-! ## agiros_oob_builder_procedural.py -/

/-- `TracksParser._find_distro_case_insensitive`
(agiros_oob_builder_procedural.py:88-96): exact case-insensitive key
match over the keys first, substring fallback second, `None` when
neither exists. -/
def findDistroCaseInsensitive (tracks : List (String × PyVal)) (distro : String) : Option String :=
  match tracks.find? (exactKeyMatch distro) with
  | some kv => some kv.1
  | none =>
    match tracks.find? (subKeyMatch distro) with
    | some kv => some kv.1
    | none => none

/-- The openEuler candidate order (agiros_oob_builder_procedural.py:223):
`[default] + [v for v in fallback if v != default]`. -/
def oeVersions (default : String) (fallback : List String) : List String :=
  default :: fallback.filter (fun v => v ≠ default)

/-- One build invocation's observable outcome: exit code and captured
output lines (the collaborator `run`). -/
structure RunOutcome where
  rc : Int
  out : List String

/-- One attempted candidate's diagnostic record. -/
structure AttemptRec where
  version : String
  rc : Int
  out : List String
deriving DecidableEq

/-- The openEuler fallback loop (agiros_oob_builder_procedural.py:225-239):
try candidates in order, stop at the first zero exit; every attempt
leaves one diagnostic record; the boolean is the `success` flag. -/
def oeRunAttempts (versions : List String) (result : String → RunOutcome) : List AttemptRec × Bool :=
  match versions with
  | [] => ([], false)
  | v :: rest =>
    let r := result v
    if r.rc = 0 then ([⟨v, r.rc, r.out⟩], true)
    else
      let (recs, ok) := oeRunAttempts rest result
      (⟨v, r.rc, r.out⟩ :: recs, ok)

/-- The missing-dependency diagnostic lines written for one failed
attempt (agiros_oob_builder_procedural.py:218-220 and 237-239): every
output line containing the marker, prefixed. -/
def missingRuleLines (out : List String) : List String :=
  (out.filter (fun l => strContains l "No agirosdep rule for")).map
    (fun l => "缺失 rule: " ++ l)

/-- The fail.log line for one failed openEuler attempt
(agiros_oob_builder_procedural.py:235). -/
def oeFailLine (pkg ver : String) (rc : Int) : String :=
  pkg ++ " openeuler:" ++ ver ++ " 失败 rc=" ++ toString rc

/-- fail.log lines produced by a sequence of openEuler attempts: nothing
for a success, one headline plus the missing-rule diagnostics for each
failure (agiros_oob_builder_procedural.py:229-239). -/
def oeFailLogLines (pkg : String) (attempts : List AttemptRec) : List String :=
  attempts.flatMap (fun r =>
    if r.rc = 0 then [] else oeFailLine pkg r.version r.rc :: missingRuleLines r.out)

/-- The fail.log line for a failed ubuntu attempt
(agiros_oob_builder_procedural.py:216). -/
def ubuntuFailLine (pkg : String) (rc : Int) : String :=
  pkg ++ " ubuntu 失败 rc=" ++ toString rc

/-- fail.log lines of one ubuntu attempt
(agiros_oob_builder_procedural.py:212-220). -/
def ubuntuAttemptLog (pkg : String) (r : RunOutcome) : List String :=
  if r.rc = 0 then [] else ubuntuFailLine pkg r.rc :: missingRuleLines r.out

/-- The on-disk fail.log after a batch run: `main` opens the log with
mode "w" (agiros_oob_builder_procedural.py:168), so the file holds
exactly the lines of the current run; the prior content is discarded. -/
def failLogOnDisk (prior : List String) (runLines : List String) : List String :=
  runLines

/-! ## agiros_tools_menu.py : queue store

The queue store persists two files: the line file (one package name per
line, `#`-suffixed when completed) and a JSON metadata file. The line
file is modelled as the list of its lines (without the newline
terminators `_write_queue_file` appends); the metadata file as the
parsed JSON value. `json.dumps(..., ensure_ascii=False, indent=2)` is a
fixed injective rendering of an insertion-ordered object, so two
metadata files are byte-identical exactly when their structured values
are equal. -/

/-- A queued build task (agiros_tools_menu.py:117-121). Paths are
strings (`str(task.path)` is what gets persisted). -/
structure BuildTask where
  display_name : String
  path : String
  kind : String
  extra_args : List String
deriving DecidableEq

/-- The in-memory queue model of `MenuState`: ordered package list,
completion flags (a total function, `dict.get(pkg, False)`), and the
flattened task list. -/
structure LoadedState where
  queue_packages : List String
  package_status : String → Bool
  build_queue : List BuildTask

/-- One package's entry in the written metadata file:
`\x7b"path": ..., "kinds": \x7b kind: \x7b"extra_args": [...]\x7d\x7d\x7d`. -/
structure MetaEntry where
  path : String
  kinds : List (String × List String)
deriving DecidableEq

/-- The two persisted queue files, in structured form. -/
structure QueueFiles where
  queueLines : List String
  meta : List (String × MetaEntry)
deriving DecidableEq

/-! ### A small JSON reader

`load_queue_from_file` calls `json.loads` on queue lines that look like
JSON objects (legacy format). The reader below covers the JSON-object
fragment those lines use: objects with string keys, strings (with the
common escapes; `\u` escapes and floats are rejected), integers,
booleans, `null`, arrays and nested objects. Duplicate keys inside one
object are not collapsed (CPython keeps the last value; no theorem
below feeds a duplicate-key object through the reader). -/

def jsonWs (c : Char) : Bool :=
  c = ' ' || c = '\t' || c = '\n' || c = '\r'

def skipWs : List Char → List Char
  | c :: cs => if jsonWs c then skipWs cs else c :: cs
  | [] => []

/-- Parse a JSON string body (the opening quote already consumed). -/
def parseStringBody : List Char → Option (String × List Char)
  | [] => none
  | c :: cs =>
    if c = '"' then some ("", cs)
    else if c = '\\' then
      match cs with
      | [] => none
      | e :: cs2 =>
        let dec : Option Char :=
          if e = '"' then some '"'
          else if e = '\\' then some '\\'
          else if e = '/' then some '/'
          else if e = 'n' then some '\n'
          else if e = 't' then some '\t'
          else if e = 'r' then some '\r'
          else none
        match dec with
        | none => none
        | some d => (parseStringBody cs2).map (fun sr => (String.singleton d ++ sr.1, sr.2))
    else (parseStringBody cs).map (fun sr => (String.singleton c ++ sr.1, sr.2))

/-- Parse a JSON integer (floats and exponents rejected). -/
def parseIntChars (cs : List Char) : Option (Int × List Char) :=
  let neg : Bool := match cs with
    | c :: _ => c == '-'
    | [] => false
  let cs1 := if neg then cs.drop 1 else cs
  let digits := cs1.takeWhile Char.isDigit
  let rest := cs1.dropWhile Char.isDigit
  if digits.isEmpty then none
  else
    match rest with
    | '.' :: _ => none
    | 'e' :: _ => none
    | 'E' :: _ => none
    | _ =>
      let n : Nat := digits.foldl (fun acc c => acc * 10 + (c.toNat - 48)) 0
      some (if neg then -(n : Int) else (n : Int), rest)

mutual
def parseJValue (fuel : Nat) (cs : List Char) : Option (PyVal × List Char) :=
  match fuel with
  | 0 => none
  | fuel + 1 =>
    match skipWs cs with
    | [] => none
    | c :: rest =>
      if c = '"' then (parseStringBody rest).map (fun sr => (PyVal.s sr.1, sr.2))
      else if c = Char.ofNat 123 then parseJObjBody fuel rest
      else if c = '[' then parseJArrBody fuel rest
      else if ['t', 'r', 'u', 'e'].isPrefixOf (c :: rest) then some (.b true, (c :: rest).drop 4)
      else if ['f', 'a', 'l', 's', 'e'].isPrefixOf (c :: rest) then some (.b false, (c :: rest).drop 5)
      else if ['n', 'u', 'l', 'l'].isPrefixOf (c :: rest) then some (.null, (c :: rest).drop 4)
      else (parseIntChars (c :: rest)).map (fun nr => (PyVal.i nr.1, nr.2))

termination_by structural fuel
def parseJObjBody (fuel : Nat) (cs : List Char) : Option (PyVal × List Char) :=
  match fuel with
  | 0 => none
  | fuel + 1 =>
    match skipWs cs with
    | [] => none
    | c :: rest =>
      if c = Char.ofNat 125 then some (.obj [], rest)
      else (parseJMembers fuel (c :: rest)).map (fun er => (PyVal.obj er.1, er.2))

termination_by structural fuel
def parseJMembers (fuel : Nat) (cs : List Char) : Option (List (String × PyVal) × List Char) :=
  match fuel with
  | 0 => none
  | fuel + 1 =>
    match skipWs cs with
    | [] => none
    | c :: rest =>
      if c = '"' then
        match parseStringBody rest with
        | none => none
        | some (k, r1) =>
          match skipWs r1 with
          | ':' :: r2 =>
            match parseJValue fuel r2 with
            | none => none
            | some (v, r3) =>
              match skipWs r3 with
              | c2 :: r4 =>
                if c2 = ',' then
                  (parseJMembers fuel r4).map (fun er => ((k, v) :: er.1, er.2))
                else if c2 = Char.ofNat 125 then some ([(k, v)], r4)
                else none
              | [] => none
          | _ => none
      else none

termination_by structural fuel
def parseJArrBody (fuel : Nat) (cs : List Char) : Option (PyVal × List Char) :=
  match fuel with
  | 0 => none
  | fuel + 1 =>
    match skipWs cs with
    | [] => none
    | c :: rest =>
      if c = ']' then some (.arr [], rest)
      else (parseJItems fuel (c :: rest)).map (fun xr => (PyVal.arr xr.1, xr.2))

termination_by structural fuel
def parseJItems (fuel : Nat) (cs : List Char) : Option (List PyVal × List Char) :=
  match fuel with
  | 0 => none
  | fuel + 1 =>
    match parseJValue fuel cs with
    | none => none
    | some (v, r1) =>
      match skipWs r1 with
      | c :: r2 =>
        if c = ',' then (parseJItems fuel r2).map (fun xr => (v :: xr.1, xr.2))
        else if c = ']' then some ([v], r2)
        else none
      | [] => none
termination_by structural fuel
end

/-- `json.loads` on one queue line (must consume the whole line). -/
def parseJsonText (line : String) : Option PyVal :=
  let cs := line.toList
  match parseJValue (cs.length + 1) cs with
  | some (v, rest) => if (skipWs rest).isEmpty then some v else none
  | none => none

/-! ### load_queue_from_file (agiros_tools_menu.py:273-380) -/

def objGet (v : PyVal) (k : String) : Option PyVal :=
  match v with
  | .obj es => alGet es k
  | _ => none

def objSet (v : PyVal) (k : String) (x : PyVal) : PyVal :=
  match v with
  | .obj es => .obj (alSet es k x)
  | other => other

/-- `str(d.get(k) or "")`: the stringified value when present and
truthy, else the empty string. -/
def strGetOrEmpty (es : List (String × PyVal)) (k : String) : String :=
  match alGet es k with
  | some p => if p.truthy then pyStr p else ""
  | none => ""

/-- The `legacy_meta` update performed for one legacy JSON queue line
(agiros_tools_menu.py:307-312): `setdefault` the package entry, refresh
its path when non-empty, and store the kind's extra_args. -/
def legacyUpdate (legacy : List (String × PyVal)) (name pathStr kind : String)
    (extra : List String) : List (String × PyVal) :=
  let entry := match alGet legacy name with
    | some v => v
    | none => PyVal.obj [("path", .s pathStr), ("kinds", .obj [])]
  let entry := if pathStr ≠ "" then objSet entry "path" (.s pathStr) else entry
  let kindPayload : PyVal := .obj [("extra_args", .arr (extra.map PyVal.s))]
  let entry := match objGet entry "kinds" with
    | some (.obj ks) => objSet entry "kinds" (.obj (alSet ks kind kindPayload))
    | some _ => entry
    | none => objSet entry "kinds" (.obj (alSet [] kind kindPayload))
  alSet legacy name entry

/-- Accumulator of the line loop in `load_queue_from_file`. -/
structure LoadAcc where
  packages : List String
  status : String → Bool
  legacy : List (String × PyVal)

/-- Record a parsed (name, completed) pair (agiros_tools_menu.py:318-322):
skip empty names, append first-seen names, OR the completion flag. -/
def loadFinish (acc : LoadAcc) (name : String) (completed : Bool) : LoadAcc :=
  if name = "" then acc
  else
    { packages := if acc.packages.contains name then acc.packages else acc.packages ++ [name]
      status := fun p => if p = name then (acc.status p || completed) else acc.status p
      legacy := acc.legacy }

/-- One iteration of the line loop (agiros_tools_menu.py:284-322). A
line is JSON-parsed only when, after stripping, it starts with `\x7b`
and ends with `\x7d`; a parse failure or a dict without a truthy `name`
falls back to the plain name[\#] format. -/
def loadLine (acc : LoadAcc) (raw : String) : LoadAcc :=
  let line := pyStrip raw
  if line = "" then acc
  else
    let parsed : Option PyVal :=
      if pyStartsWith line "\x7b" && pyEndsWith line "\x7d" then parseJsonText line else none
    let jsonCase : Option (List (String × PyVal)) :=
      match parsed with
      | some (.obj obj) =>
        match alGet obj "name" with
        | some nv => if nv.truthy then some obj else none
        | none => none
      | _ => none
    match jsonCase with
    | some obj =>
      let nv := (alGet obj "name").getD .null
      let name := pyStrip (pyStr nv)
      let completed := match alGet obj "completed" with
        | some c => c.truthy
        | none => false
      let kind := match alGet obj "kind" with
        | some k => pyStr k
        | none => "debian"
      let pathStr := strGetOrEmpty obj "path"
      let extraList : List String := match alGet obj "extra_args" with
        | some (.arr xs) => xs.map pyStr
        | some v => if v.truthy then [pyStr v] else []
        | none => []
      loadFinish { acc with legacy := legacyUpdate acc.legacy name pathStr kind extraList }
        name completed
    | none =>
      let (name, completed) :=
        if pyEndsWith line "#" then (pyStrip (pyDropLast line), true) else (line, false)
      loadFinish acc name completed

/-- Reading the metadata JSON file (agiros_tools_menu.py:324-330): a
non-dict, unparsable or missing document degrades to `\x7b\x7d`. -/
def readMetaFile (metaJ : Option PyVal) : List (String × PyVal) :=
  match metaJ with
  | some (.obj es) => es
  | _ => []

/-- Merging one legacy entry into the metadata mapping
(agiros_tools_menu.py:332-345). -/
def mergeLegacyEntry (meta : List (String × PyVal)) (pkg : String) (info : PyVal) :
    List (String × PyVal) :=
  let existing : List (String × PyVal) :=
    match alGet meta pkg with
    | some (.obj es) => es
    | _ => []
  let mergedPath := strGetOrEmpty existing "path"
  let infoPath := match objGet info "path" with
    | some p => if p.truthy then pyStr p else ""
    | none => ""
  let pathToUse := if infoPath ≠ "" then infoPath else mergedPath
  let mergedKinds : List (String × PyVal) :=
    match alGet existing "kinds" with
    | some (.obj ks) => ks
    | _ => []
  let mergedKinds := match objGet info "kinds" with
    | some (.obj ks) => ks.foldl (fun m kv => alSet m kv.1 kv.2) mergedKinds
    | _ => mergedKinds
  alSet meta pkg (.obj [("path", .s pathToUse), ("kinds", .obj mergedKinds)])

/-- Python `Path(a) / b`: `b` wins when absolute. -/
def pyPathJoin (a b : String) : String :=
  if pyStartsWith b "/" then b else a ++ "/" ++ b

/-- extra_args of one kind payload (agiros_tools_menu.py:367-374). -/
def taskExtraOf (payload : PyVal) : List String :=
  match payload with
  | .obj p =>
    match alGet p "extra_args" with
    | some (.arr xs) => xs.map pyStr
    | some v => if v.truthy then [pyStr v] else []
    | none => []
  | _ => []

/-- The tasks synthesized for one loaded package
(agiros_tools_menu.py:347-375). `canon` is the filesystem path
canonicalisation `str(Path(...).expanduser().resolve())`. A package
without kind metadata gets a single default debian task. -/
def tasksForPkg (meta : List (String × PyVal)) (canon : String → String)
    (codeDir pkg : String) : List BuildTask :=
  let info := (alGet meta pkg).getD (.obj [])
  let basePathStr := match info with
    | .obj es => strGetOrEmpty es "path"
    | _ => ""
  let kindsInfo : List (String × PyVal) := match info with
    | .obj es =>
      match alGet es "kinds" with
      | some (.obj ks) => ks
      | _ => []
    | _ => []
  let basePath := canon (if basePathStr ≠ "" then basePathStr else pyPathJoin codeDir pkg)
  if kindsInfo.isEmpty then [⟨pkg, basePath, "debian", []⟩]
  else kindsInfo.map (fun kv => ⟨pkg, basePath, kv.1, taskExtraOf kv.2⟩)

/-- `load_queue_from_file` (agiros_tools_menu.py:273-380) over the two
file models. -/
def loadState (canon : String → String) (codeDir : String)
    (queueLines : List String) (metaJ : Option PyVal) : LoadedState :=
  let acc := queueLines.foldl loadLine ⟨[], fun _ => false, []⟩
  let meta0 := readMetaFile metaJ
  let meta := acc.legacy.foldl (fun m kv => mergeLegacyEntry m kv.1 kv.2) meta0
  let tasks := acc.packages.flatMap (fun pkg => tasksForPkg meta canon codeDir pkg)
  ⟨acc.packages, acc.status, tasks⟩

/-! ### save_queue / append_task_to_queue (agiros_tools_menu.py:382-446) -/

/-- The `(display_name, kind)` identity key of a task. -/
def taskIdKey (t : BuildTask) : String × String :=
  (t.display_name, t.kind)

/-- The dedup loop in `save_queue` (agiros_tools_menu.py:384-392): keep
the FIRST task of each `(display_name, kind)` identity. -/
def dedupTasksGo (seen : List (String × String)) : List BuildTask → List BuildTask
  | [] => []
  | t :: ts =>
    if seen.contains (t.display_name, t.kind) then dedupTasksGo seen ts
    else t :: dedupTasksGo ((t.display_name, t.kind) :: seen) ts

def dedupTasks (tasks : List BuildTask) : List BuildTask :=
  dedupTasksGo [] tasks

/-- The package-order recomputation in `save_queue`
(agiros_tools_menu.py:393-398): start from the CURRENT queue_packages,
append unseen task names, then drop packages without tasks. -/
def addNewNames (queuePackages : List String) (tasks : List BuildTask) : List String :=
  tasks.foldl
    (fun ord t => if ord.contains t.display_name then ord else ord ++ [t.display_name])
    queuePackages

def recomputeOrder (queuePackages : List String) (tasks : List BuildTask) : List String :=
  (addNewNames queuePackages tasks).filter (fun pkg => tasks.any (fun t => t.display_name == pkg))

/-- `_write_meta_from_tasks` (agiros_tools_menu.py:438-446): group tasks
by package in first-seen order; the entry path is overwritten by every
task of the package (last wins); kinds are assigned in task order. -/
def metaInsert (m : List (String × MetaEntry)) (t : BuildTask) : List (String × MetaEntry) :=
  match alGet m t.display_name with
  | none => m ++ [(t.display_name, ⟨t.path, [(t.kind, t.extra_args)]⟩)]
  | some e => alSet m t.display_name ⟨t.path, alSet e.kinds t.kind t.extra_args⟩

def writeMetaFromTasks (tasks : List BuildTask) : List (String × MetaEntry) :=
  tasks.foldl metaInsert []

/-- `_write_queue_file` (agiros_tools_menu.py:431-436): one line per
package, `#`-suffixed when completed. -/
def writeQueueLines (order : List String) (status : String → Bool) : List String :=
  order.map (fun pkg => pkg ++ (if status pkg then "#" else ""))

structure SaveResult where
  state : LoadedState
  files : QueueFiles

/-- `save_queue(tasks)` (agiros_tools_menu.py:382-404): dedup, recompute
order, restrict the flags, store the new model and write both files. -/
def saveQueue (s : LoadedState) (tasks : List BuildTask) : SaveResult :=
  let tasks := dedupTasks tasks
  let order := recomputeOrder s.queue_packages tasks
  let status := fun pkg => if order.contains pkg then s.package_status pkg else false
  { state := ⟨order, status, tasks⟩
    files := ⟨writeQueueLines order status, writeMetaFromTasks tasks⟩ }

/-- `save_queue()` with the default argument `self.build_queue`. -/
def saveFiles (s : LoadedState) : QueueFiles :=
  (saveQueue s s.build_queue).files

/-- The in-place replacement loop of `append_task_to_queue`
(agiros_tools_menu.py:408-414). -/
def replaceTaskInQueue : List BuildTask → BuildTask → List BuildTask × Bool
  | [], _ => ([], false)
  | e :: rest, t =>
    if e.display_name == t.display_name && e.kind == t.kind then
      ({ e with path := t.path, extra_args := t.extra_args } :: rest, true)
    else
      let ru := replaceTaskInQueue rest t
      (e :: ru.1, ru.2)

/-- `append_task_to_queue` (agiros_tools_menu.py:406-421): replace in
place or append, register the package, unconditionally reset its
completion flag to false, then `save_queue()`. -/
def appendTaskToQueue (s : LoadedState) (t : BuildTask) : SaveResult :=
  let ru := replaceTaskInQueue s.build_queue t
  let queue := if ru.2 then ru.1 else ru.1 ++ [t]
  let packages :=
    if s.queue_packages.contains t.display_name then s.queue_packages
    else s.queue_packages ++ [t.display_name]
  let status := fun p => if p = t.display_name then false else s.package_status p
  saveQueue ⟨packages, status, queue⟩ queue

/-- The written metadata file re-read as a JSON value (what round two of
a load-save cycle sees). -/
def metaEntryToPyVal (e : MetaEntry) : PyVal :=
  .obj [("path", .s e.path),
        ("kinds", .obj (e.kinds.map (fun kv => (kv.1, PyVal.obj [("extra_args", .arr (kv.2.map PyVal.s))]))))]

def writtenMetaToPyVal (m : List (String × MetaEntry)) : PyVal :=
  .obj (m.map (fun kv => (kv.1, metaEntryToPyVal kv.2)))

/-- One load-then-save pass over the two on-disk files. -/
def roundTrip (canon : String → String) (codeDir : String)
    (queueLines : List String) (metaJ : Option PyVal) : QueueFiles :=
  saveFiles (loadState canon codeDir queueLines metaJ)

/-- A second load-then-save pass, starting from written files. -/
def roundTripFiles (canon : String → String) (codeDir : String) (f : QueueFiles) : QueueFiles :=
  roundTrip canon codeDir f.queueLines (some (writtenMetaToPyVal f.meta))

/-! ## agiros_tools_menu.py : batch execution (manage_build_queue,
agiros_tools_menu.py:872-908) -/

/-- Observable actions of one batch pass: executing one task of a
package (`execute_build`) and persisting the store (`save_queue`). -/
inductive QueueEvent where
  | exec (pkg kind : String) (ok : Bool)
  | persist
deriving DecidableEq

/-- Running one package's tasks (agiros_tools_menu.py:890-893):
sequential, stop at the first failure; the flag is `package_failed`. -/
def runPkgTasks (tasks : List BuildTask) (result : BuildTask → Bool) :
    List QueueEvent × Bool :=
  match tasks with
  | [] => ([], false)
  | t :: ts =>
    if result t then
      let er := runPkgTasks ts result
      (QueueEvent.exec t.display_name t.kind true :: er.1, er.2)
    else ([QueueEvent.exec t.display_name t.kind false], true)

structure BatchAcc where
  events : List QueueEvent
  status : String → Bool
  failed : List String
  aborted : Bool

/-- One iteration of the package loop (agiros_tools_menu.py:882-901).
`contAfterFail` is the operator's answer to the continue prompt. -/
def execQueueStep (queue : List BuildTask) (result : BuildTask → Bool)
    (contAfterFail : String → Bool) (acc : BatchAcc) (pkg : String) : BatchAcc :=
  if acc.aborted then acc
  else
    let tasksForPkg := queue.filter (fun t => t.display_name == pkg)
    if tasksForPkg.isEmpty then acc
    else if acc.status pkg then acc
    else
      let er := runPkgTasks tasksForPkg result
      if er.2 then
        { events := acc.events ++ er.1
          status := fun p => if p = pkg then false else acc.status p
          failed := acc.failed ++ [pkg]
          aborted := !contAfterFail pkg }
      else
        { events := acc.events ++ er.1
          status := fun p => if p = pkg then true else acc.status p
          failed := acc.failed
          aborted := false }

/-- The observable action trace of one "execute queue" choice
(agiros_tools_menu.py:872-902): nothing happens when no package is
pending; otherwise the package loop runs and `save_queue` is called
exactly once, after the loop. -/
def executeQueueEvents (s : LoadedState) (result : BuildTask → Bool)
    (contAfterFail : String → Bool) : List QueueEvent :=
  let pending := s.queue_packages.filter (fun p => !s.package_status p)
  if pending.isEmpty then []
  else
    let final := s.queue_packages.foldl (execQueueStep s.build_queue result contAfterFail)
      ⟨[], s.package_status, [], false⟩
    final.events ++ [QueueEvent.persist]

/-- The persistence discipline claimed for the batch pass: between work
on two different packages the store is persisted. -/
def persistSeparatesPackages (tr : List QueueEvent) : Prop :=
  ∀ i j p1 k1 o1 p2 k2 o2, i < j →
    tr.get? i = some (QueueEvent.exec p1 k1 o1) →
    tr.get? j = some (QueueEvent.exec p2 k2 o2) → p1 ≠ p2 →
    ∃ k, i < k ∧ k < j ∧ tr.get? k = some QueueEvent.persist

/-- A two-package queue used as a concrete batch input. -/
def sampleQueueState : LoadedState :=
  ⟨["a", "b"], fun _ => false,
   [⟨"a", "/code/a", "debian", []⟩, ⟨"b", "/code/b", "debian", []⟩]⟩

/-- Keys of an association list are pairwise distinct (a property every
dictionary produced by `json.loads` has). -/
def keysNodup {α : Type} : List (String × α) → Bool
  | [] => true
  | kv :: es => !(es.map (fun kw => kw.1)).contains kv.1 && keysNodup es

mutual
/-- Every object nested in the value has pairwise-distinct keys — true
of every value `json.loads` returns. -/
def pyValKeysNodup : PyVal → Bool
  | .s _ => true
  | .i _ => true
  | .b _ => true
  | .null => true
  | .arr xs => pyValListKeysNodup xs
  | .obj es => keysNodup es && pyValEntriesKeysNodup es

def pyValListKeysNodup : List PyVal → Bool
  | [] => true
  | x :: xs => pyValKeysNodup x && pyValListKeysNodup xs

def pyValEntriesKeysNodup : List (String × PyVal) → Bool
  | [] => true
  | kv :: es => pyValKeysNodup kv.2 && pyValEntriesKeysNodup es
end

/-- The task list `load_queue_from_file` builds for one package with
base path `bp` and kind metadata `ks`: one task per kind, in order. -/
def blockTasks (pkg bp : String) (ks : List (String × List String)) : List BuildTask :=
  ks.map (fun kv => ⟨pkg, bp, kv.1, kv.2⟩)

/-- The base-path string `load_queue_from_file` derives for one package
before canonicalisation (the metadata path when non-empty, else the
configured source directory joined with the package name). -/
def pkgBaseRaw (meta : List (String × PyVal)) (codeDir pkg : String) : String :=
  let info := (alGet meta pkg).getD (.obj [])
  let basePathStr := match info with
    | .obj es => strGetOrEmpty es "path"
    | _ => ""
  if basePathStr ≠ "" then basePathStr else pyPathJoin codeDir pkg

/-- The kind/extra-args pairs `load_queue_from_file` derives for one
package (the synthesized default debian task when no kind metadata
exists). -/
def pkgKinds (meta : List (String × PyVal)) (pkg : String) : List (String × List String) :=
  let info := (alGet meta pkg).getD (.obj [])
  let kindsInfo : List (String × PyVal) := match info with
    | .obj es =>
      match alGet es "kinds" with
      | some (.obj ks) => ks
      | _ => []
    | _ => []
  if kindsInfo.isEmpty then [("debian", [])]
  else kindsInfo.map (fun kv => (kv.1, taskExtraOf kv.2))

/-- The queue line written by a first load-save round whose legacy JSON
name is itself a JSON object literal (used to exhibit the
non-idempotence of save-after-load). -/
def legacyNestedLine : String :=
  "\x7b\"name\": \"\x7b\\\"name\\\": \\\"b\\\"\x7d\"\x7d"

/-- Shape of a package name as the plain-format loader produces it:
non-empty, strip-fixed, and with a true completion flag whenever the
name ends in the completion marker or is brace-delimited (the two
shapes whose written line re-parses specially). -/
def serializedGood (p : String) (status : String → Bool) : Prop :=
  p ≠ "" ∧ pyStrip p = p ∧
  (pyEndsWith p "#" = true → status p = true) ∧
  ((pyStartsWith p "\x7b" && pyEndsWith p "\x7d") = true → status p = true)

/-- Invariant of the line-loop accumulator when every input line is in
the plain (non-JSON) format. -/
def accGood (acc : LoadAcc) : Prop :=
  acc.packages.Nodup ∧ acc.legacy = [] ∧
  ∀ p ∈ acc.packages, serializedGood p acc.status

/-! # Helper lemmas -/

theorem normalizeBranchName_ne_empty (s : String) : normalizeBranchName s ≠ "" := by
  simp only [normalizeBranchName]
  split
  · decide
  · assumption

theorem upstreamBranchOf_ne_empty (sec : Section) : upstreamBranchOf sec ≠ "" := by
  simp only [upstreamBranchOf]
  split
  · exact normalizeBranchName_ne_empty _
  · split
    · split
      · exact normalizeBranchName_ne_empty _
      · decide
    · decide

theorem toDigitsCore10_head (fuel : Nat) :
    ∀ (n : Nat) (ds : List Char), ∃ m cs, m < 10 ∧
      Nat.toDigitsCore 10 (fuel + 1) n ds = Nat.digitChar m :: cs := by
  induction fuel with
  | zero =>
    intro n ds
    refine ⟨n % 10, ds, by omega, ?_⟩
    rw [Nat.toDigitsCore]
    split
    · rfl
    · rw [Nat.toDigitsCore]
  | succ f ih =>
    intro n ds
    by_cases h : n / 10 = 0
    · refine ⟨n % 10, ds, by omega, ?_⟩
      rw [Nat.toDigitsCore]
      simp [h]
    · obtain ⟨m, cs, hm, heq⟩ := ih (n / 10) (Nat.digitChar (n % 10) :: ds)
      refine ⟨m, cs, hm, ?_⟩
      rw [Nat.toDigitsCore]
      simp [h, heq]

theorem natRepr_head (n : Nat) :
    ∃ m cs, m < 10 ∧ (Nat.repr n).toList = Nat.digitChar m :: cs := by
  obtain ⟨m, cs, hm, heq⟩ := toDigitsCore10_head n n []
  exact ⟨m, cs, hm, heq⟩

theorem digitChar_not_colon (m : Nat) (h : m < 10) : Nat.digitChar m ≠ ':' := by
  interval_cases m <;> decide

theorem intToString_head (n : Int) :
    ∃ c cs, (toString n).toList = c :: cs ∧ c ≠ ':' := by
  cases n with
  | ofNat m =>
    obtain ⟨d, cs, hd, heq⟩ := natRepr_head m
    exact ⟨Nat.digitChar d, cs, heq, digitChar_not_colon d hd⟩
  | negSucc m =>
    exact ⟨'-', (Nat.repr (m + 1)).toList, rfl, by decide⟩

theorem intToString_ne_empty (n : Int) : toString n ≠ "" := by
  obtain ⟨c, cs, heq, _⟩ := intToString_head n
  intro hcontra
  rw [hcontra] at heq
  exact List.cons_ne_nil c cs heq.symm

theorem intToString_not_placeholder (n : Int) :
    pyStartsWith (toString n) ":\x7b" = false := by
  obtain ⟨c, cs, heq, hc⟩ := intToString_head n
  simp only [pyStartsWith, heq]
  show ((":\x7b".toList).isPrefixOf (c :: cs)) = false
  have : ":\x7b".toList = [':', Char.ofNat 123] := by decide
  rw [this]
  simp only [List.isPrefixOf]
  have : (':' == c) = false := by
    simp only [beq_eq_false_iff_ne]
    exact fun h2 => hc h2.symm
  simp [this]

/-! # Claim C5 -/

/-- C5 counterexample: with `devel_branch = "a b"` (a non-empty string),
the derived upstream_branch is the normalized "a-b", not `devel_branch`
itself, so the claimed equality with the raw field fails. -/
theorem C5_counterexample :
    upstreamBranchOf [("devel_branch", PyVal.s "a b")] = "a-b" ∧
    upstreamBranchOf [("devel_branch", PyVal.s "a b")] ≠ "a b" := by
  constructor
  · rfl
  · decide

/-- C5 (amended): for every track section, the derived upstream_branch is
never the empty string; it equals the normalized (stripped,
space-to-hyphen) `devel_branch` (or legacy `upstream-branch`) whenever
that field is a string with non-whitespace content; otherwise it equals
the normalized `version` whenever `version` is a string with
non-whitespace content that does not start with the marker `:\x7b`;
otherwise it is the literal "upstream". -/
theorem C5_amended (sec : Section) :
    upstreamBranchOf sec ≠ "" ∧
    (∀ v, nonBlankStr (pyGetOr sec "devel_branch" "upstream-branch") = some v →
      upstreamBranchOf sec = normalizeBranchName v) ∧
    (∀ v, nonBlankStr (pyGetOr sec "devel_branch" "upstream-branch") = none →
      alGet sec "version" = some (PyVal.s v) → (pyStrip v == "") = false →
      pyStartsWith v ":\x7b" = false →
      upstreamBranchOf sec = normalizeBranchName v) ∧
    (nonBlankStr (pyGetOr sec "devel_branch" "upstream-branch") = none →
      (∀ v, alGet sec "version" = some (PyVal.s v) →
        (pyStrip v == "") = true ∨ pyStartsWith v ":\x7b" = true) →
      upstreamBranchOf sec = "upstream") := by
  refine ⟨upstreamBranchOf_ne_empty sec, ?_, ?_, ?_⟩
  · intro v h
    simp only [upstreamBranchOf, h]
  · intro v h hv hne hph
    simp only [upstreamBranchOf, h, hv, hne, hph]
    simp
  · intro h hall
    simp only [upstreamBranchOf, h]
    cases hv : alGet sec "version" with
    | none => simp
    | some w =>
      cases w with
      | s v =>
        rcases hall v hv with h1 | h1 <;> simp [h1]
      | i v => simp
      | b v => simp
      | null => simp
      | arr xs => simp
      | obj es => simp

/-- C5 witness. -/
theorem C5_witness :
    upstreamBranchOf [("devel_branch", PyVal.s "feature/x")] = "feature/x" := by
  have h := (C5_amended [("devel_branch", PyVal.s "feature/x")]).2.1 "feature/x" (by decide)
  exact h.trans (by decide)

/-! # Claim C9 -/

/-- C9 counterexample: with `release_inc: "abc"` (present but not
parsable as an integer), the config-sync path keeps "abc" verbatim
instead of defaulting to "0"; only the tag-computation path defaults
(to 1). -/
theorem C9_counterexample :
    pyIntOfString "abc" = none ∧
    pyStr (configSyncReleaseInc [("release_inc", PyVal.s "abc")]) = "abc" ∧
    pyStr (configSyncReleaseInc [("release_inc", PyVal.s "abc")]) ≠ "0" ∧
    releaseIncGen [("release_inc", PyVal.s "abc")] = 1 := by
  refine ⟨by decide, rfl, by decide, by decide⟩

/-- C9 (amended): the two call paths resolve release_inc differently and
each path's behavior is fixed. The config-sync path
(`_ensure_gbp_conf`) defaults to "0" when release_inc is absent, null,
blank after stripping, or a placeholder token; it coerces an integer to
its decimal string, a boolean to "1"/"0", and keeps any other non-blank
string verbatim (stripped), even an unparsable one. The tag-computation
path (`generate_gbp_conf`) defaults to 1 when release_inc is absent or
not convertible by `int()`, and otherwise uses the converted integer. -/
theorem C9_amended (sec : Section) :
    (alGet sec "release_inc" = none →
      pyStr (configSyncReleaseInc sec) = "0" ∧ releaseIncGen sec = 1) ∧
    (alGet sec "release_inc" = some PyVal.null →
      pyStr (configSyncReleaseInc sec) = "0" ∧ releaseIncGen sec = 1) ∧
    (∀ n : Int, alGet sec "release_inc" = some (PyVal.i n) →
      pyStr (configSyncReleaseInc sec) = toString n ∧ releaseIncGen sec = n) ∧
    (∀ bv : Bool, alGet sec "release_inc" = some (PyVal.b bv) →
      pyStr (configSyncReleaseInc sec) = (if bv then "1" else "0") ∧
      releaseIncGen sec = (if bv then 1 else 0)) ∧
    (∀ v : String, alGet sec "release_inc" = some (PyVal.s v) →
      ((pyStrip v = "" ∨ pyStartsWith (pyStrip v) ":\x7b" = true) →
        pyStr (configSyncReleaseInc sec) = "0") ∧
      (pyStrip v ≠ "" → pyStartsWith (pyStrip v) ":\x7b" = false →
        pyStr (configSyncReleaseInc sec) = pyStrip v) ∧
      releaseIncGen sec = (pyIntOfString v).getD 1) := by
  refine ⟨?_, ?_, ?_, ?_, ?_⟩
  · intro h
    constructor
    · simp only [configSyncReleaseInc, readTracksReleaseInc, h]
      rfl
    · simp only [releaseIncGen, h]
  · intro h
    constructor
    · simp only [configSyncReleaseInc, readTracksReleaseInc, h]
      rfl
    · simp only [releaseIncGen, h]
      rfl
  · intro n h
    constructor
    · simp only [configSyncReleaseInc, readTracksReleaseInc, h]
      have h1 : (PyVal.s (toString n)).truthy = true := by
        simp only [PyVal.truthy, Bool.not_eq_eq_eq_not, Bool.not_true, beq_eq_false_iff_ne,
          ne_eq]
        exact intToString_ne_empty n
      have h2 : isPlaceholder (PyVal.s (toString n)) = false := by
        simp only [isPlaceholder]
        exact intToString_not_placeholder n
      simp [h1, h2, pyStr]
    · simp only [releaseIncGen, h, pyInt]
  · intro bv h
    constructor
    · cases bv <;> simp only [configSyncReleaseInc, readTracksReleaseInc, h] <;> rfl
    · cases bv <;> simp only [releaseIncGen, h, pyInt] <;> rfl
  · intro v h
    refine ⟨?_, ?_, ?_⟩
    · intro hcase
      simp only [configSyncReleaseInc, readTracksReleaseInc, h]
      rcases hcase with h1 | h1
      · simp only [h1, PyVal.truthy]
        simp [pyStr]
      · simp only [isPlaceholder, h1]
        simp [pyStr]
    · intro h1 h2
      simp only [configSyncReleaseInc, readTracksReleaseInc, h]
      simp [h1, h2, isPlaceholder, PyVal.truthy, pyStr]
    · simp only [releaseIncGen, h, pyInt]
      cases hp : pyIntOfString v <;> simp [hp]

/-- C9 witness. -/
theorem C9_witness :
    pyStr (configSyncReleaseInc [("release_inc", PyVal.i 2)]) = "2" ∧
    releaseIncGen [("release_inc", PyVal.i 2)] = 2 := by
  have h := (C9_amended [("release_inc", PyVal.i 2)]).2.2.1 2 rfl
  exact ⟨h.1.trans (by decide), h.2⟩

/-! # Claim C6 -/

/-- C6 counterexample: with the single track key "jazzy-rolling" and
target distro "jazzy" there is no exact case-insensitive match but
there is a substring match; the gbpconf and oob-builder lookups find a
section while the agirosdebian `_read_tracks` lookup (one of the cited
section lookups) reports section-not-found, refuting the claim that
section lookup falls back to a substring match whenever no exact
case-insensitive match exists. -/
theorem C6_counterexample :
    (pickDistroSection [("jazzy-rolling", PyVal.obj [("release_inc", PyVal.i 2)])]
      "jazzy").isSome = true ∧
    findDistroCaseInsensitive [("jazzy-rolling", PyVal.obj [("release_inc", PyVal.i 2)])]
      "jazzy" = some "jazzy-rolling" ∧
    (readTracksFindSection [("jazzy-rolling", PyVal.obj [("release_inc", PyVal.i 2)])]
      "jazzy").isSome = false := by
  refine ⟨rfl, rfl, rfl⟩

/-- C6 (amended): `_pick_distro_section` and
`_find_distro_case_insensitive` return the first exact case-insensitive
match when one exists, fall back to the first case-insensitive
substring match otherwise, and fail only when neither exists; the
agirosdebian/generate_cmd `_read_tracks` lookup instead uses only exact
case-insensitive matching and reports no section whenever no exact
match (on a dict-valued, non-empty section) exists. -/
theorem C6_amended (tracks : List (String × PyVal)) (distro : String) :
    (∀ kv, tracks.find? (exactDictMatch distro) = some kv →
      pickDistroSection tracks distro = kv.2.asDict) ∧
    (tracks.find? (exactDictMatch distro) = none →
      pickDistroSection tracks distro =
        (tracks.find? (subDictMatch distro)).bind (fun kv => kv.2.asDict)) ∧
    (pickDistroSection tracks distro = none ↔
      (tracks.find? (exactDictMatch distro) = none ∧
       tracks.find? (subDictMatch distro) = none)) ∧
    (∀ kv, tracks.find? (exactKeyMatch distro) = some kv →
      findDistroCaseInsensitive tracks distro = some kv.1) ∧
    (tracks.find? (exactKeyMatch distro) = none →
      findDistroCaseInsensitive tracks distro =
        (tracks.find? (subKeyMatch distro)).map (fun kv => kv.1)) ∧
    (tracks.find? (exactDictMatch distro) = none →
      readTracksFindSection tracks distro = none) := by
  refine ⟨?_, ?_, ?_, ?_, ?_, ?_⟩
  · intro kv h
    simp only [pickDistroSection, h]
  · intro h
    simp only [pickDistroSection, h]
    cases hs : tracks.find? (subDictMatch distro) <;> simp
  · constructor
    · intro h
      cases he : tracks.find? (exactDictMatch distro) with
      | some kv =>
        exfalso
        have hm := List.find?_some he
        simp only [exactDictMatch, Bool.and_eq_true] at hm
        simp only [pickDistroSection, he] at h
        cases hv : kv.2 <;> rw [hv] at h hm
        all_goals first
          | simpa [PyVal.asDict] using h
          | simp [PyVal.isDict] at hm
      | none =>
        refine ⟨rfl, ?_⟩
        cases hs : tracks.find? (subDictMatch distro) with
        | some kv =>
          exfalso
          have hm := List.find?_some hs
          simp only [subDictMatch, Bool.and_eq_true] at hm
          simp only [pickDistroSection, he, hs] at h
          cases hv : kv.2 <;> rw [hv] at h hm
          all_goals first
            | simpa [PyVal.asDict] using h
            | simp [PyVal.isDict] at hm
        | none => rfl
    · rintro ⟨h1, h2⟩
      simp only [pickDistroSection, h1, h2]
  · intro kv h
    simp only [findDistroCaseInsensitive, h]
  · intro h
    simp only [findDistroCaseInsensitive, h]
    cases hs : tracks.find? (subKeyMatch distro) <;> simp
  · intro h
    simp only [readTracksFindSection, h]

/-- C6 witness. -/
theorem C6_witness :
    pickDistroSection [("Jazzy", PyVal.obj [("release_inc", PyVal.i 2)])] "jazzy" =
      some [("release_inc", PyVal.i 2)] := by
  have h := (C6_amended [("Jazzy", PyVal.obj [("release_inc", PyVal.i 2)])] "jazzy").1
    ("Jazzy", PyVal.obj [("release_inc", PyVal.i 2)]) rfl
  exact h

/-! # Claim C1 -/

/-- C1: for both gbp.conf generation paths, the upstream-tag written is
exactly `release/` + distro + `/` + pkg + `/` + version + `-` +
release_inc, where version and release_inc are the values each path
resolves; the tag is independent of any pattern-based tag in the track
descriptor (it depends only on the `release_inc` and `version` fields
of the section); and the version falls back to "0.0.0" when the package
manifest yields no version and the track provides no usable version. -/
theorem C1_theorem (d p : String) (sec : Section) (mv : Option String) :
    gbpconfUpstreamTag d p sec mv =
      "release/" ++ d ++ "/" ++ p ++ "/" ++ readPkgxmlVersion mv ++ "-" ++
        toString (releaseIncGen sec) ∧
    ensureGbpConfTag d p sec mv =
      "release/" ++ d ++ "/" ++ p ++ "/" ++ resolveVersion mv sec ++ "-" ++
        pyStr (configSyncReleaseInc sec) ∧
    (∀ sec2 : Section, alGet sec2 "release_inc" = alGet sec "release_inc" →
      gbpconfUpstreamTag d p sec2 mv = gbpconfUpstreamTag d p sec mv) ∧
    (∀ sec2 : Section, alGet sec2 "release_inc" = alGet sec "release_inc" →
      alGet sec2 "version" = alGet sec "version" →
      ensureGbpConfTag d p sec2 mv = ensureGbpConfTag d p sec mv) ∧
    (mv = none → readPkgxmlVersion mv = "0.0.0") ∧
    (mv = none → readTracksVersion sec = none → resolveVersion mv sec = "0.0.0") := by
  refine ⟨rfl, rfl, ?_, ?_, ?_, ?_⟩
  · intro sec2 hinc
    simp only [gbpconfUpstreamTag, releaseIncGen, hinc]
  · intro sec2 hinc hver
    simp only [ensureGbpConfTag, configSyncReleaseInc, readTracksReleaseInc, resolveVersion,
      readTracksVersion, hinc, hver]
  · intro h
    rw [h]
    rfl
  · intro h hv
    rw [h]
    simp only [resolveVersion, hv]
    rfl

/-- C1 witness: a section carrying a pattern-based release tag; the
written tag is still the plain concatenation, and a section with the
pattern removed yields the same tag. -/
theorem C1_witness :
    gbpconfUpstreamTag "loong" "foo"
      [("release_inc", PyVal.i 2), ("release", PyVal.obj [("tags", PyVal.s "v\x7bversion\x7d")])]
      (some "1.2.3") = "release/loong/foo/1.2.3-2" ∧
    gbpconfUpstreamTag "loong" "foo" [("release_inc", PyVal.i 2)] (some "1.2.3") =
      gbpconfUpstreamTag "loong" "foo"
        [("release_inc", PyVal.i 2), ("release", PyVal.obj [("tags", PyVal.s "v\x7bversion\x7d")])]
        (some "1.2.3") ∧
    readPkgxmlVersion none = "0.0.0" := by
  have h := C1_theorem "loong" "foo"
    [("release_inc", PyVal.i 2), ("release", PyVal.obj [("tags", PyVal.s "v\x7bversion\x7d")])]
    (some "1.2.3")
  refine ⟨h.1.trans (by rfl), h.2.2.1 [("release_inc", PyVal.i 2)] rfl, rfl⟩

/-! # Claim C4 -/

theorem oeRunAttempts_map_version (vs : List String) (result : String → RunOutcome) :
    ((oeRunAttempts vs result).1).map (fun r => r.version) =
      vs.takeWhile (fun v => !((result v).rc == 0)) ++
        (vs.find? (fun v => (result v).rc == 0)).toList := by
  induction vs with
  | nil => rfl
  | cons v rest ih =>
    simp only [oeRunAttempts]
    by_cases h : (result v).rc = 0
    · simp [h]
    · simp only [h, if_false]
      simp [h, ih]

theorem oeRunAttempts_snd (vs : List String) (result : String → RunOutcome) :
    (oeRunAttempts vs result).2 = vs.any (fun v => (result v).rc == 0) := by
  induction vs with
  | nil => rfl
  | cons v rest ih =>
    simp only [oeRunAttempts]
    by_cases h : (result v).rc = 0
    · simp [h]
    · simp [h, ih]

theorem oeRunAttempts_mem (vs : List String) (result : String → RunOutcome) :
    ∀ r ∈ (oeRunAttempts vs result).1,
      r.rc = (result r.version).rc ∧ r.out = (result r.version).out := by
  induction vs with
  | nil => intro r hr; exact absurd hr (by simp [oeRunAttempts])
  | cons v rest ih =>
    intro r hr
    simp only [oeRunAttempts] at hr
    by_cases h : (result v).rc = 0
    · rw [if_pos h] at hr
      simp only [List.mem_singleton] at hr
      subst hr
      exact ⟨rfl, rfl⟩
    · rw [if_neg h] at hr
      simp only [List.mem_cons] at hr
      rcases hr with hr | hr
      · subst hr
        exact ⟨rfl, rfl⟩
      · exact ih r hr

theorem oeRunAttempts_allfail (vs : List String) (result : String → RunOutcome)
    (h : ∀ v ∈ vs, (result v).rc ≠ 0) :
    (oeRunAttempts vs result).1 =
      vs.map (fun v => ⟨v, (result v).rc, (result v).out⟩) ∧
    (oeRunAttempts vs result).2 = false := by
  induction vs with
  | nil => exact ⟨rfl, rfl⟩
  | cons v rest ih =>
    have hv : (result v).rc ≠ 0 := h v (List.mem_cons_self v rest)
    have hrest := ih (fun w hw => h w (List.mem_cons_of_mem v hw))
    simp only [oeRunAttempts, hv, if_false, List.map_cons]
    exact ⟨by rw [hrest.1], hrest.2⟩

theorem oeFailLogLines_allfail (pkg : String) (vs : List String) (result : String → RunOutcome)
    (h : ∀ v ∈ vs, (result v).rc ≠ 0) :
    oeFailLogLines pkg (vs.map (fun v => ⟨v, (result v).rc, (result v).out⟩)) =
      vs.flatMap (fun v => oeFailLine pkg v (result v).rc :: missingRuleLines (result v).out) := by
  induction vs with
  | nil => rfl
  | cons v rest ih =>
    have hv : (result v).rc ≠ 0 := h v (List.mem_cons_self v rest)
    have hrest := ih (fun w hw => h w (List.mem_cons_of_mem v hw))
    simp only [oeFailLogLines, List.map_cons, List.flatMap_cons] at hrest ⊢
    rw [hrest]
    simp [hv]

/-- C4: the openEuler fallback search tries candidates in the order
primary followed by the fallback entries different from the primary (in
their original order), stops and reports success at the first zero-exit
invocation, records for every attempted candidate its exit code and
captured output, and when every candidate fails it attempts all of them,
reports failure, and the failure log carries one headline plus the
matching missing-dependency lines per attempted candidate. -/
theorem C4_theorem (primary : String) (fallback : List String) (pkg : String)
    (result : String → RunOutcome) :
    oeVersions primary fallback = primary :: fallback.filter (fun v => v ≠ primary) ∧
    ((oeRunAttempts (oeVersions primary fallback) result).1).map (fun r => r.version) =
      (oeVersions primary fallback).takeWhile (fun v => !((result v).rc == 0)) ++
        ((oeVersions primary fallback).find? (fun v => (result v).rc == 0)).toList ∧
    (oeRunAttempts (oeVersions primary fallback) result).2 =
      (oeVersions primary fallback).any (fun v => (result v).rc == 0) ∧
    (∀ r ∈ (oeRunAttempts (oeVersions primary fallback) result).1,
      r.rc = (result r.version).rc ∧ r.out = (result r.version).out) ∧
    ((∀ v ∈ oeVersions primary fallback, (result v).rc ≠ 0) →
      (oeRunAttempts (oeVersions primary fallback) result).1 =
        (oeVersions primary fallback).map (fun v => ⟨v, (result v).rc, (result v).out⟩) ∧
      (oeRunAttempts (oeVersions primary fallback) result).2 = false ∧
      oeFailLogLines pkg (oeRunAttempts (oeVersions primary fallback) result).1 =
        (oeVersions primary fallback).flatMap
          (fun v => oeFailLine pkg v (result v).rc :: missingRuleLines (result v).out)) := by
  refine ⟨rfl, oeRunAttempts_map_version _ _, oeRunAttempts_snd _ _, oeRunAttempts_mem _ _, ?_⟩
  intro h
  obtain ⟨h1, h2⟩ := oeRunAttempts_allfail (oeVersions primary fallback) result h
  refine ⟨h1, h2, ?_⟩
  rw [h1]
  exact oeFailLogLines_allfail pkg _ result h

/-- C4 witness: primary "24" with fallback ["22","23","24"] and every
candidate failing attempts exactly ["24","22","23"] and reports
failure. -/
theorem C4_witness :
    ((oeRunAttempts (oeVersions "24" ["22", "23", "24"])
        (fun _ => ⟨1, []⟩)).1).map (fun r => r.version) = ["24", "22", "23"] ∧
    (oeRunAttempts (oeVersions "24" ["22", "23", "24"]) (fun _ => ⟨1, []⟩)).2 = false := by
  have h := C4_theorem "24" ["22", "23", "24"] "pkg" (fun _ => ⟨1, []⟩)
  have hall := h.2.2.2.2 (by intro v _; decide)
  constructor
  · rw [hall.1]
    rfl
  · exact hall.2.1

/-! # Claim C10 -/

/-- C10 counterexample: the batch run opens fail.log in "w" mode, so a
failure line recorded by an earlier run is erased by the next run: the
log is not append-only across runs. -/
theorem C10_counterexample :
    failLogOnDisk ["oldpkg ubuntu 失败 rc=1"] [] = [] ∧
    "oldpkg ubuntu 失败 rc=1" ∉ failLogOnDisk ["oldpkg ubuntu 失败 rc=1"] [] := by
  refine ⟨rfl, by simp [failLogOnDisk]⟩

/-- C10 (amended): the failure log is truncated at the start of each
batch run and afterwards holds exactly the current run's records,
independent of any earlier content; within a run it is append-only,
with one headline line per failed build attempt (package, target, exit
code) plus one line per output line matching the missing-dependency
marker. -/
theorem C10_amended (prior runLines : List String) (pkg : String) (r : RunOutcome)
    (a : AttemptRec) (rest : List AttemptRec) :
    failLogOnDisk prior runLines = runLines ∧
    (r.rc = 0 → ubuntuAttemptLog pkg r = []) ∧
    (r.rc ≠ 0 →
      ubuntuAttemptLog pkg r = ubuntuFailLine pkg r.rc :: missingRuleLines r.out) ∧
    oeFailLogLines pkg (a :: rest) =
      (if a.rc = 0 then []
       else oeFailLine pkg a.version a.rc :: missingRuleLines a.out) ++
        oeFailLogLines pkg rest ∧
    (∀ l, l ∈ missingRuleLines r.out ↔
      ∃ l0, l0 ∈ r.out ∧ strContains l0 "No agirosdep rule for" = true ∧
        l = "缺失 rule: " ++ l0) := by
  refine ⟨rfl, ?_, ?_, ?_, ?_⟩
  · intro h
    simp [ubuntuAttemptLog, h]
  · intro h
    simp [ubuntuAttemptLog, h]
  · simp only [oeFailLogLines, List.flatMap_cons]
  · intro l
    simp only [missingRuleLines, List.mem_map, List.mem_filter]
    constructor
    · rintro ⟨l0, ⟨hmem, hc⟩, heq⟩
      exact ⟨l0, hmem, hc, heq.symm⟩
    · rintro ⟨l0, hmem, hc, heq⟩
      exact ⟨l0, ⟨hmem, hc⟩, heq.symm⟩

/-- C10 witness. -/
theorem C10_witness :
    ubuntuAttemptLog "foo" ⟨1, ["No agirosdep rule for bar", "other"]⟩ =
      ["foo ubuntu 失败 rc=1", "缺失 rule: No agirosdep rule for bar"] := by
  have h := (C10_amended [] [] "foo" ⟨1, ["No agirosdep rule for bar", "other"]⟩
    ⟨"24", 1, []⟩ []).2.2.1 (by decide)
  rw [h]
  rfl

/-! # Claim C8 -/

theorem dedupTasksGo_find? (k : String × String) :
    ∀ (ts : List BuildTask) (seen : List (String × String)), seen.contains k = false →
      (dedupTasksGo seen ts).find? (fun t => taskIdKey t == k) =
        ts.find? (fun t => taskIdKey t == k) := by
  intro ts
  induction ts with
  | nil => intro seen _; rfl
  | cons t rest ih =>
    intro seen hk
    simp only [dedupTasksGo]
    by_cases hs : seen.contains (t.display_name, t.kind) = true
    · rw [if_pos hs]
      have hne : (taskIdKey t == k) = false := by
        simp only [beq_eq_false_iff_ne, ne_eq, taskIdKey]
        intro hEq
        rw [hEq] at hs
        rw [hs] at hk
        exact Bool.noConfusion hk
      rw [List.find?_cons_of_neg (p := fun u => taskIdKey u == k) _ (by simp [hne])]
      exact ih seen hk
    · rw [if_neg hs]
      by_cases hek : (taskIdKey t == k) = true
      · rw [List.find?_cons_of_pos (p := fun u => taskIdKey u == k) _ hek,
          List.find?_cons_of_pos (p := fun u => taskIdKey u == k) _ hek]
      · have hekf : (taskIdKey t == k) = false := Bool.eq_false_iff.mpr hek
        rw [List.find?_cons_of_neg (p := fun u => taskIdKey u == k) _ (by simp [hekf]),
          List.find?_cons_of_neg (p := fun u => taskIdKey u == k) _ (by simp [hekf])]
        refine ih _ ?_
        simp only [List.contains_cons, Bool.or_eq_false_iff]
        refine ⟨?_, hk⟩
        simp only [beq_eq_false_iff_ne, ne_eq]
        intro hEq
        rw [hEq] at hekf
        simp [taskIdKey] at hekf
  termination_by ts => ts.length

theorem dedupTasksGo_unseen :
    ∀ (ts : List BuildTask) (seen : List (String × String)),
      ∀ t ∈ dedupTasksGo seen ts, seen.contains (taskIdKey t) = false := by
  intro ts
  induction ts with
  | nil => intro seen t ht; exact absurd ht (by simp [dedupTasksGo])
  | cons u rest ih =>
    intro seen t ht
    simp only [dedupTasksGo] at ht
    by_cases hs : seen.contains (u.display_name, u.kind) = true
    · rw [if_pos hs] at ht
      exact ih seen t ht
    · rw [if_neg hs] at ht
      rcases List.mem_cons.mp ht with h | h
      · subst h
        exact Bool.eq_false_iff.mpr hs
      · have := ih _ t h
        simp only [List.contains_cons, Bool.or_eq_false_iff] at this
        exact this.2

theorem dedupTasksGo_pairwise :
    ∀ (ts : List BuildTask) (seen : List (String × String)),
      (dedupTasksGo seen ts).Pairwise (fun a b => taskIdKey a ≠ taskIdKey b) := by
  intro ts
  induction ts with
  | nil => intro seen; simp [dedupTasksGo]
  | cons u rest ih =>
    intro seen
    simp only [dedupTasksGo]
    by_cases hs : seen.contains (u.display_name, u.kind) = true
    · rw [if_pos hs]
      exact ih seen
    · rw [if_neg hs]
      refine List.Pairwise.cons ?_ (ih _)
      intro t ht hEq
      have := dedupTasksGo_unseen rest _ t ht
      simp only [List.contains_cons, Bool.or_eq_false_iff] at this
      rw [← hEq] at this
      simp [taskIdKey] at this

theorem dedupTasksGo_eq_self :
    ∀ (ts : List BuildTask) (seen : List (String × String)),
      ts.Pairwise (fun a b => taskIdKey a ≠ taskIdKey b) →
      (∀ t ∈ ts, seen.contains (taskIdKey t) = false) →
      dedupTasksGo seen ts = ts := by
  intro ts
  induction ts with
  | nil => intro seen _ _; rfl
  | cons u rest ih =>
    intro seen hp hup
    have hu : seen.contains (taskIdKey u) = false := hup u (List.mem_cons_self u rest)
    simp only [dedupTasksGo]
    rw [if_neg (by simpa [taskIdKey] using hu)]
    congr 1
    refine ih _ (List.Pairwise.sublist (List.sublist_cons_self u rest) hp) ?_
    intro t ht
    simp only [List.contains_cons, Bool.or_eq_false_iff]
    refine ⟨?_, hup t (List.mem_cons_of_mem u ht)⟩
    simp only [beq_eq_false_iff_ne, ne_eq]
    intro hEq
    exact (List.rel_of_pairwise_cons hp ht) (by simpa [taskIdKey] using hEq.symm)

theorem dedupTasks_eq_self (ts : List BuildTask)
    (hp : ts.Pairwise (fun a b => taskIdKey a ≠ taskIdKey b)) :
    dedupTasks ts = ts :=
  dedupTasksGo_eq_self ts [] hp (fun t _ => rfl)

/-- C8 counterexample: the dedup loop in `save_queue` keeps the FIRST
task of a duplicated identity (later entries lose), and the recomputed
package order starts from the previously stored `queue_packages`, not
from the tasks' first-seen order. -/
theorem C8_counterexample :
    dedupTasks [⟨"a", "/p1", "debian", []⟩, ⟨"a", "/p2", "debian", []⟩] =
      [⟨"a", "/p1", "debian", []⟩] ∧
    dedupTasks [⟨"a", "/p1", "debian", []⟩, ⟨"a", "/p2", "debian", []⟩] ≠
      [⟨"a", "/p2", "debian", []⟩] ∧
    (saveQueue ⟨["b", "a"], fun _ => false,
        [⟨"a", "/pa", "debian", []⟩, ⟨"b", "/pb", "debian", []⟩]⟩
      [⟨"a", "/pa", "debian", []⟩, ⟨"b", "/pb", "debian", []⟩]).state.queue_packages =
      ["b", "a"] := by
  refine ⟨rfl, by decide, rfl⟩

/-- C8 (amended): `save_queue` deduplicates tasks by (display_name,
kind) identity with EARLIER entries winning, leaves at most one task
per identity, recomputes the package order by appending the deduped
tasks' unseen names (in first-seen order) to the PREVIOUS
queue_packages order and then dropping every package left with zero
tasks, and rewrites the line file from that order. -/
theorem C8_amended (s : LoadedState) (tasks : List BuildTask) (k : String × String) :
    (dedupTasks tasks).find? (fun t => taskIdKey t == k) =
      tasks.find? (fun t => taskIdKey t == k) ∧
    (dedupTasks tasks).Pairwise (fun a b => taskIdKey a ≠ taskIdKey b) ∧
    (saveQueue s tasks).state.build_queue = dedupTasks tasks ∧
    (saveQueue s tasks).state.queue_packages =
      (addNewNames s.queue_packages (dedupTasks tasks)).filter
        (fun pkg => (dedupTasks tasks).any (fun t => t.display_name == pkg)) ∧
    (∀ pkg ∈ (saveQueue s tasks).state.queue_packages,
      ∃ t ∈ (saveQueue s tasks).state.build_queue, t.display_name = pkg) ∧
    (saveQueue s tasks).files.queueLines =
      ((saveQueue s tasks).state.queue_packages).map
        (fun pkg =>
          pkg ++ (if (saveQueue s tasks).state.package_status pkg then "#" else "")) := by
  refine ⟨dedupTasksGo_find? k tasks [] rfl, dedupTasksGo_pairwise tasks [], rfl, rfl, ?_, rfl⟩
  intro pkg hpkg
  have h2 := hpkg
  simp only [saveQueue, recomputeOrder, List.mem_filter] at h2
  obtain ⟨t, ht, hte⟩ := List.any_eq_true.mp h2.2
  exact ⟨t, ht, by simpa using hte⟩

/-- C8 witness. -/
theorem C8_witness :
    (dedupTasks [⟨"a", "/p1", "debian", ["-x"]⟩, ⟨"a", "/p1", "rpm", []⟩]).find?
        (fun t => taskIdKey t == ("a", "rpm")) =
      some ⟨"a", "/p1", "rpm", []⟩ := by
  have h := (C8_amended sampleQueueState
    [⟨"a", "/p1", "debian", ["-x"]⟩, ⟨"a", "/p1", "rpm", []⟩] ("a", "rpm")).1
  rw [h]
  rfl

/-! # Claim C7 -/

theorem replaceTaskInQueue_keys (q : List BuildTask) (t : BuildTask) :
    ((replaceTaskInQueue q t).1).map taskIdKey = q.map taskIdKey ∧
    ((replaceTaskInQueue q t).1).length = q.length := by
  induction q with
  | nil => exact ⟨rfl, rfl⟩
  | cons e rest ih =>
    simp only [replaceTaskInQueue]
    by_cases h : (e.display_name == t.display_name && e.kind == t.kind) = true
    · rw [if_pos h]
      simp only [List.map_cons, List.length_cons]
      simp only [Bool.and_eq_true, beq_iff_eq] at h
      exact ⟨by simp [taskIdKey, h.1, h.2], trivial⟩
    · rw [if_neg h]
      simp only [List.map_cons, List.length_cons]
      exact ⟨by rw [ih.1], by rw [ih.2]⟩

theorem replaceTaskInQueue_snd (q : List BuildTask) (t : BuildTask) :
    (replaceTaskInQueue q t).2 = q.any (fun e => taskIdKey e == taskIdKey t) := by
  induction q with
  | nil => rfl
  | cons e rest ih =>
    simp only [replaceTaskInQueue, List.any_cons]
    by_cases h : (e.display_name == t.display_name && e.kind == t.kind) = true
    · rw [if_pos h]
      have hb : (taskIdKey e == taskIdKey t) = true := h
      simp [hb]
    · rw [if_neg h]
      have hb : (taskIdKey e == taskIdKey t) = false := Bool.eq_false_iff.mpr h
      simp [hb, ih]

theorem replaceTaskInQueue_not_found (q : List BuildTask) (t : BuildTask)
    (h : (replaceTaskInQueue q t).2 = false) : (replaceTaskInQueue q t).1 = q := by
  induction q with
  | nil => rfl
  | cons e rest ih =>
    simp only [replaceTaskInQueue] at h ⊢
    by_cases hm : (e.display_name == t.display_name && e.kind == t.kind) = true
    · rw [if_pos hm] at h
      exact Bool.noConfusion h
    · rw [if_neg hm] at h ⊢
      rw [ih h]

theorem replaceTaskInQueue_match (q : List BuildTask) (t : BuildTask)
    (hp : q.Pairwise (fun a b => taskIdKey a ≠ taskIdKey b)) :
    ∀ u ∈ (replaceTaskInQueue q t).1, taskIdKey u = taskIdKey t →
      u.path = t.path ∧ u.extra_args = t.extra_args := by
  induction q with
  | nil => intro u hu; exact absurd hu (by simp [replaceTaskInQueue])
  | cons e rest ih =>
    intro u hu hk
    simp only [replaceTaskInQueue] at hu
    by_cases hm : (e.display_name == t.display_name && e.kind == t.kind) = true
    · rw [if_pos hm] at hu
      rcases List.mem_cons.mp hu with h | h
      · subst h
        exact ⟨rfl, rfl⟩
      · exfalso
        simp only [Bool.and_eq_true, beq_iff_eq] at hm
        have hek : taskIdKey e = taskIdKey t := by simp [taskIdKey, hm.1, hm.2]
        exact (List.rel_of_pairwise_cons hp h) (hek.trans hk.symm)
    · rw [if_neg hm] at hu
      rcases List.mem_cons.mp hu with h | h
      · exfalso
        subst h
        apply hm
        have h1 : u.display_name = t.display_name := congrArg Prod.fst hk
        have h2 : u.kind = t.kind := congrArg Prod.snd hk
        simp [h1, h2]
      · exact ih (List.Pairwise.sublist (List.sublist_cons_self e rest) hp) u h hk

/-- C7: assuming the queue invariant (at most one task per identity
key), `append_task_to_queue` preserves it; when the key already exists
it keeps the queue's length and key sequence and overwrites the
matching task's path and extra_args in place; when it does not exist
the task is appended at the end; and in all cases the package's
completion flag ends up false, even if it was previously true. -/
theorem C7_theorem (s : LoadedState) (t : BuildTask)
    (hinv : s.build_queue.Pairwise (fun a b => taskIdKey a ≠ taskIdKey b)) :
    ((appendTaskToQueue s t).state.build_queue).Pairwise
      (fun a b => taskIdKey a ≠ taskIdKey b) ∧
    (s.build_queue.any (fun e => taskIdKey e == taskIdKey t) = true →
      ((appendTaskToQueue s t).state.build_queue).map taskIdKey =
        s.build_queue.map taskIdKey ∧
      ((appendTaskToQueue s t).state.build_queue).length = s.build_queue.length ∧
      (∀ u ∈ (appendTaskToQueue s t).state.build_queue, taskIdKey u = taskIdKey t →
        u.path = t.path ∧ u.extra_args = t.extra_args)) ∧
    (s.build_queue.any (fun e => taskIdKey e == taskIdKey t) = false →
      (appendTaskToQueue s t).state.build_queue = s.build_queue ++ [t]) ∧
    (appendTaskToQueue s t).state.package_status t.display_name = false := by
  have hkeys := replaceTaskInQueue_keys s.build_queue t
  have hsnd := replaceTaskInQueue_snd s.build_queue t
  by_cases hfound : s.build_queue.any (fun e => taskIdKey e == taskIdKey t) = true
  · -- replacement in place
    have h2 : (replaceTaskInQueue s.build_queue t).2 = true := by rw [hsnd]; exact hfound
    have hq : (appendTaskToQueue s t).state.build_queue =
        (replaceTaskInQueue s.build_queue t).1 := by
      simp only [appendTaskToQueue, h2, if_true, saveQueue]
      refine dedupTasks_eq_self _ ?_
      rw [← List.pairwise_map (f := taskIdKey)] at hinv ⊢
      rw [hkeys.1]
      exact hinv
    have hpair : ((appendTaskToQueue s t).state.build_queue).Pairwise
        (fun a b => taskIdKey a ≠ taskIdKey b) := by
      rw [hq, ← List.pairwise_map (f := taskIdKey), hkeys.1,
        List.pairwise_map (f := taskIdKey)]
      exact hinv
    refine ⟨hpair, ?_, ?_, ?_⟩
    · intro _
      refine ⟨?_, ?_, ?_⟩
      · rw [hq, hkeys.1]
      · rw [hq, hkeys.2]
      · intro u hu hk
        rw [hq] at hu
        exact replaceTaskInQueue_match s.build_queue t hinv u hu hk
    · intro hcontra
      rw [hfound] at hcontra
      exact Bool.noConfusion hcontra
    · simp only [appendTaskToQueue, saveQueue]
      split <;> simp
  · -- append at the end
    have hnf : s.build_queue.any (fun e => taskIdKey e == taskIdKey t) = false :=
      Bool.eq_false_iff.mpr hfound
    have h2 : (replaceTaskInQueue s.build_queue t).2 = false := by rw [hsnd]; exact hnf
    have hq0 : (replaceTaskInQueue s.build_queue t).1 = s.build_queue :=
      replaceTaskInQueue_not_found s.build_queue t h2
    have hpairapp : (s.build_queue ++ [t]).Pairwise
        (fun a b => taskIdKey a ≠ taskIdKey b) := by
      rw [List.pairwise_append]
      refine ⟨hinv, List.pairwise_singleton _ _, ?_⟩
      intro a ha b hb
      have := List.any_eq_false.mp hnf a ha
      simp only [beq_eq_false_iff_ne, ne_eq] at this
      simpa [List.mem_singleton.mp hb] using this
    have hq : (appendTaskToQueue s t).state.build_queue = s.build_queue ++ [t] := by
      simp only [appendTaskToQueue, h2, if_false, saveQueue, hq0]
      exact dedupTasks_eq_self _ hpairapp
    have hp2 : ((appendTaskToQueue s t).state.build_queue).Pairwise
        (fun a b => taskIdKey a ≠ taskIdKey b) := by rw [hq]; exact hpairapp
    refine ⟨hp2, ?_, fun _ => hq, ?_⟩
    · intro hcontra
      rw [hnf] at hcontra
      exact Bool.noConfusion hcontra
    · simp only [appendTaskToQueue, saveQueue]
      split <;> simp

/-- C7 witness: appending a task whose `(name, kind)` exists (with flag
previously true) overwrites path/args without a duplicate and resets
the flag. -/
theorem C7_witness :
    ((appendTaskToQueue ⟨["a"], fun _ => true, [⟨"a", "/old", "debian", []⟩]⟩
        ⟨"a", "/new", "debian", ["-x"]⟩).state.build_queue).length = 1 ∧
    (appendTaskToQueue ⟨["a"], fun _ => true, [⟨"a", "/old", "debian", []⟩]⟩
        ⟨"a", "/new", "debian", ["-x"]⟩).state.package_status "a" = false := by
  have h := C7_theorem ⟨["a"], fun _ => true, [⟨"a", "/old", "debian", []⟩]⟩
    ⟨"a", "/new", "debian", ["-x"]⟩ (by simp)
  exact ⟨((h.2.1 (by rfl)).2.1).trans rfl, h.2.2.2⟩

/-! # Claim C2 -/

theorem runPkgTasks_no_persist (tasks : List BuildTask) (result : BuildTask → Bool) :
    QueueEvent.persist ∉ (runPkgTasks tasks result).1 := by
  induction tasks with
  | nil => simp [runPkgTasks]
  | cons t rest ih =>
    simp only [runPkgTasks]
    by_cases h : result t = true
    · rw [if_pos h]
      simp only [List.mem_cons, not_or]
      exact ⟨by simp, ih⟩
    · rw [if_neg h]
      simp

theorem execQueueStep_no_persist (queue : List BuildTask) (result : BuildTask → Bool)
    (cont : String → Bool) (acc : BatchAcc) (pkg : String)
    (h : QueueEvent.persist ∉ acc.events) :
    QueueEvent.persist ∉ (execQueueStep queue result cont acc pkg).events := by
  simp only [execQueueStep]
  split
  · exact h
  · split
    · exact h
    · split
      · exact h
      · split <;>
          · simp only [List.mem_append, not_or]
            exact ⟨h, runPkgTasks_no_persist _ _⟩

theorem execQueueFoldl_no_persist (queue : List BuildTask) (result : BuildTask → Bool)
    (cont : String → Bool) :
    ∀ (pkgs : List String) (acc : BatchAcc), QueueEvent.persist ∉ acc.events →
      QueueEvent.persist ∉
        (pkgs.foldl (execQueueStep queue result cont) acc).events := by
  intro pkgs
  induction pkgs with
  | nil => intro acc h; exact h
  | cons p rest ih =>
    intro acc h
    exact ih _ (execQueueStep_no_persist queue result cont acc p h)

/-- C2 counterexample: with two pending single-task packages that both
build successfully, the action trace is exec a, exec b, persist — the
store is NOT persisted between finishing package "a" and starting
package "b"; `save_queue` runs only once, after the whole loop. -/
theorem C2_counterexample :
    executeQueueEvents sampleQueueState (fun _ => true) (fun _ => true) =
      [QueueEvent.exec "a" "debian" true, QueueEvent.exec "b" "debian" true,
       QueueEvent.persist] ∧
    ¬ persistSeparatesPackages
        (executeQueueEvents sampleQueueState (fun _ => true) (fun _ => true)) := by
  have htr : executeQueueEvents sampleQueueState (fun _ => true) (fun _ => true) =
      [QueueEvent.exec "a" "debian" true, QueueEvent.exec "b" "debian" true,
       QueueEvent.persist] := by rfl
  refine ⟨htr, ?_⟩
  intro h
  obtain ⟨k, hk1, hk2, _⟩ := h 0 1 "a" "debian" true "b" "debian" true (by omega)
    (by rw [htr]; rfl) (by rw [htr]; rfl) (by decide)
  omega

/-- C2 (amended): a batch execution persists the queue store exactly
once, after the loop over all packages has finished (also when aborted
early); when no package is pending nothing is executed and nothing is
persisted. A crash during the loop can therefore lose the completion
updates of every package finished in that run. -/
theorem C2_amended (s : LoadedState) (result : BuildTask → Bool) (cont : String → Bool) :
    (s.queue_packages.filter (fun p => !s.package_status p) = [] →
      executeQueueEvents s result cont = []) ∧
    ((s.queue_packages.filter (fun p => !s.package_status p)).isEmpty = false →
      ∃ evs, executeQueueEvents s result cont = evs ++ [QueueEvent.persist] ∧
        QueueEvent.persist ∉ evs) := by
  constructor
  · intro h
    simp [executeQueueEvents, h]
  · intro h
    refine ⟨(s.queue_packages.foldl (execQueueStep s.build_queue result cont)
      ⟨[], s.package_status, [], false⟩).events, ?_, ?_⟩
    · simp [executeQueueEvents, h]
    · exact execQueueFoldl_no_persist s.build_queue result cont s.queue_packages _
        (by simp)

/-- C2 witness. -/
theorem C2_witness :
    ∃ evs, executeQueueEvents sampleQueueState (fun _ => true) (fun _ => true) =
      evs ++ [QueueEvent.persist] ∧ QueueEvent.persist ∉ evs := by
  exact (C2_amended sampleQueueState (fun _ => true) (fun _ => true)).2 (by rfl)

/-! # Claim C3 -/

/-- C3 counterexample: a persisted queue whose single line is the legacy
JSON record `\x7b"name": "\x7b\"name\": \"b\"\x7d"\x7d` (its name field is itself a
JSON object literal). The first load-save round writes the line
`\x7b"name": "b"\x7d`; the second round re-parses that line as a legacy JSON
record and writes `b`, so the two rounds' files are not byte-identical
and save-after-load is not idempotent. -/
theorem C3_counterexample :
    (roundTrip (fun s => s) "/code" [legacyNestedLine] (some (PyVal.obj []))).queueLines =
      ["\x7b\"name\": \"b\"\x7d"] ∧
    (roundTripFiles (fun s => s) "/code"
      (roundTrip (fun s => s) "/code" [legacyNestedLine]
        (some (PyVal.obj [])))).queueLines = ["b"] ∧
    roundTripFiles (fun s => s) "/code"
        (roundTrip (fun s => s) "/code" [legacyNestedLine] (some (PyVal.obj []))) ≠
      roundTrip (fun s => s) "/code" [legacyNestedLine] (some (PyVal.obj [])) := by
  refine ⟨by decide, by decide, by decide⟩

theorem toList_append (s t : String) : (s ++ t).toList = s.toList ++ t.toList :=
  String.data_append s t

theorem mk_toList (s : String) : String.mk s.toList = s :=
  rfl

theorem pyStrip_eq_rdrop (s : String) :
    pyStrip s = String.mk ((s.toList.dropWhile pyWs).rdropWhile pyWs) :=
  rfl

theorem toList_mk (l : List Char) : (String.mk l).toList = l :=
  rfl

/-- A strip-fixed string is fixed by each of the two one-sided drops. -/
theorem stripFixed_drops (s : String) (h : pyStrip s = s) :
    s.toList.dropWhile pyWs = s.toList ∧ s.toList.rdropWhile pyWs = s.toList := by
  have hdata : (s.toList.dropWhile pyWs).rdropWhile pyWs = s.toList := by
    have := congrArg String.toList h
    rwa [pyStrip_eq_rdrop, toList_mk] at this
  have hsub1 : List.Sublist (s.toList.dropWhile pyWs) s.toList := List.dropWhile_sublist pyWs
  have hsub2 : List.Sublist ((s.toList.dropWhile pyWs).rdropWhile pyWs)
      (s.toList.dropWhile pyWs) :=
    (List.rdropWhile_prefix pyWs (s.toList.dropWhile pyWs)).sublist
  have hlen : (s.toList.dropWhile pyWs).length = s.toList.length := by
    have h1 := hsub1.length_le
    have h2 := hsub2.length_le
    rw [hdata] at h2
    omega
  have hd1 : s.toList.dropWhile pyWs = s.toList := hsub1.eq_of_length hlen
  refine ⟨hd1, ?_⟩
  rw [hd1] at hdata
  exact hdata

theorem dropWhile_of_prefix_fixed (w : Char → Bool) (m n : List Char)
    (hpre : n <+: m) (hm : m.dropWhile w = m) : n.dropWhile w = n := by
  cases n with
  | nil => rfl
  | cons x t =>
    obtain ⟨r, hr⟩ := hpre
    rw [← hr] at hm
    have hx : ¬ w x = true := by
      intro hx
      rw [List.cons_append, List.dropWhile_cons_of_pos hx] at hm
      have hle := (List.dropWhile_sublist (l := t ++ r) w).length_le
      rw [hm] at hle
      simp at hle
    rw [List.dropWhile_cons_of_neg hx]

theorem pyStrip_idem (s : String) : pyStrip (pyStrip s) = pyStrip s := by
  rw [pyStrip_eq_rdrop s, pyStrip_eq_rdrop]
  rw [toList_mk]
  congr 1
  have h1 : List.dropWhile pyWs ((s.toList.dropWhile pyWs).rdropWhile pyWs) =
      (s.toList.dropWhile pyWs).rdropWhile pyWs :=
    dropWhile_of_prefix_fixed pyWs (s.toList.dropWhile pyWs) _
      (List.rdropWhile_prefix pyWs (s.toList.dropWhile pyWs))
      (List.dropWhile_idempotent pyWs s.toList)
  rw [h1, List.rdropWhile_idempotent]

theorem hash_not_ws : pyWs '#' = false := by decide

theorem pyStrip_append_hash (s : String) (h : pyStrip s = s) :
    pyStrip (s ++ "#") = s ++ "#" := by
  obtain ⟨hd, _⟩ := stripFixed_drops s h
  rw [pyStrip_eq_rdrop, toList_append]
  have hhash : ("#" : String).toList = ['#'] := rfl
  rw [hhash]
  have hdrop : (s.toList ++ ['#']).dropWhile pyWs = s.toList ++ ['#'] := by
    cases hl : s.toList with
    | nil => decide
    | cons x rest =>
      rw [hl] at hd
      have hx : ¬ pyWs x = true := by
        intro hx
        have := List.dropWhile_cons_of_pos (l := rest) hx
        rw [this] at hd
        have := (List.dropWhile_sublist (l := rest) pyWs).length_le
        rw [hd] at this
        simp at this
      simp only [List.cons_append]
      rw [List.dropWhile_cons_of_neg hx]
  rw [hdrop]
  rw [List.rdropWhile_concat_neg pyWs s.toList '#' (by decide)]
  have hback : s.toList ++ ['#'] = (s ++ "#").toList := (toList_append s "#").symm
  rw [hback, mk_toList]

theorem pyEndsWith_append_hash (s : String) : pyEndsWith (s ++ "#") "#" = true := by
  simp only [pyEndsWith, toList_append]
  have : ((s.toList ++ ("#" : String).toList).reverse) = '#' :: s.toList.reverse := by
    simp
  rw [this]
  simp [List.isPrefixOf]

theorem pyEndsWith_append_hash_brace (s : String) :
    pyEndsWith (s ++ "#") "\x7d" = false := by
  simp only [pyEndsWith, toList_append]
  have : ((s.toList ++ ("#" : String).toList).reverse) = '#' :: s.toList.reverse := by
    simp
  rw [this]
  simp [List.isPrefixOf]

theorem pyDropLast_append_hash (s : String) : pyDropLast (s ++ "#") = s := by
  simp only [pyDropLast, toList_append]
  have : (s.toList ++ ("#" : String).toList).dropLast = s.toList := by
    simp
  rw [this]
  exact mk_toList s

theorem append_hash_ne_empty (s : String) : s ++ "#" ≠ "" := by
  intro h
  have := congrArg String.toList h
  rw [toList_append] at this
  simp at this

theorem append_empty_str (s : String) : s ++ "" = s := by
  have : (s ++ "").toList = s.toList := by
    rw [toList_append]
    simp
  calc s ++ "" = String.mk ((s ++ "").toList) := (mk_toList _).symm
    _ = String.mk s.toList := by rw [this]
    _ = s := mk_toList s

theorem loadLine_eq_plain (acc : LoadAcc) (raw : String)
    (hguard : (pyStartsWith (pyStrip raw) "\x7b" && pyEndsWith (pyStrip raw) "\x7d") = false) :
    loadLine acc raw =
      (if pyStrip raw = "" then acc
       else if pyEndsWith (pyStrip raw) "#" = true then
         loadFinish acc (pyStrip (pyDropLast (pyStrip raw))) true
       else loadFinish acc (pyStrip raw) false) := by
  by_cases h0 : pyStrip raw = ""
  · simp [loadLine, h0]
  · by_cases h1 : pyEndsWith (pyStrip raw) "#" = true
    · simp [loadLine, h0, h1, hguard]
    · simp [loadLine, h0, h1, hguard]

theorem loadLine_serialized (acc : LoadAcc) (p : String) (b : Bool)
    (hne : p ≠ "") (hs : pyStrip p = p)
    (hf : b = false → pyEndsWith p "#" = false ∧
      (pyStartsWith p "\x7b" && pyEndsWith p "\x7d") = false) :
    loadLine acc (p ++ (if b then "#" else "")) = loadFinish acc p b := by
  cases b with
  | true =>
    show loadLine acc (p ++ "#") = loadFinish acc p true
    have hsh : pyStrip (p ++ "#") = p ++ "#" := pyStrip_append_hash p hs
    have hguard : (pyStartsWith (pyStrip (p ++ "#")) "\x7b" &&
        pyEndsWith (pyStrip (p ++ "#")) "\x7d") = false := by
      rw [hsh, pyEndsWith_append_hash_brace]
      simp
    rw [loadLine_eq_plain acc (p ++ "#") hguard, hsh]
    rw [if_neg (append_hash_ne_empty p)]
    rw [if_pos (pyEndsWith_append_hash p)]
    rw [pyDropLast_append_hash, hs]
  | false =>
    obtain ⟨hend, hbr⟩ := hf rfl
    show loadLine acc (p ++ "") = loadFinish acc p false
    rw [append_empty_str]
    have hguard : (pyStartsWith (pyStrip p) "\x7b" && pyEndsWith (pyStrip p) "\x7d") = false := by
      rw [hs]
      exact hbr
    rw [loadLine_eq_plain acc p hguard, hs]
    rw [if_neg hne]
    rw [if_neg (by simp [hend])]

theorem contains_eq_false_of_not_mem {l : List String} {a : String} (h : a ∉ l) :
    l.contains a = false := by
  rw [Bool.eq_false_iff]
  intro hc
  exact h (List.elem_iff.mp hc)

theorem loadFinish_new (acc : LoadAcc) (p : String) (b : Bool)
    (hne : p ≠ "") (hnm : p ∉ acc.packages) :
    loadFinish acc p b =
      ⟨acc.packages ++ [p],
       fun q => if q = p then (acc.status q || b) else acc.status q,
       acc.legacy⟩ := by
  simp only [loadFinish, if_neg hne, contains_eq_false_of_not_mem hnm]
  rfl

theorem foldl_loadLine_written (statusW : String → Bool) :
    ∀ (pkgs : List String) (acc : LoadAcc),
      (∀ p ∈ pkgs, serializedGood p statusW) →
      (∀ p ∈ pkgs, p ∉ acc.packages) →
      pkgs.Nodup →
      ((pkgs.map (fun p => p ++ (if statusW p then "#" else ""))).foldl loadLine acc) =
        ⟨acc.packages ++ pkgs,
         fun q => acc.status q || (statusW q && pkgs.contains q),
         acc.legacy⟩ := by
  intro pkgs
  induction pkgs with
  | nil =>
    intro acc _ _ _
    simp only [List.map_nil, List.foldl_nil, List.append_nil]
    cases acc with
    | mk packages status legacy =>
      simp only [LoadAcc.mk.injEq]
      refine ⟨trivial, ?_, trivial⟩
      funext q
      simp
  | cons p rest ih =>
    intro acc hgood hnm hnd
    have hgp := hgood p (List.mem_cons_self p rest)
    obtain ⟨hne, hs, hh, hbr⟩ := hgp
    simp only [List.map_cons, List.foldl_cons]
    rw [loadLine_serialized acc p (statusW p) hne hs ?hf]
    case hf =>
      intro hb
      constructor
      · rw [Bool.eq_false_iff]
        intro hc
        rw [hh hc] at hb
        exact Bool.noConfusion hb
      · rw [Bool.eq_false_iff]
        intro hc
        rw [hbr hc] at hb
        exact Bool.noConfusion hb
    rw [loadFinish_new acc p (statusW p) hne (hnm p (List.mem_cons_self p rest))]
    rw [ih _ (fun q hq => hgood q (List.mem_cons_of_mem p hq)) ?hm (hnd.sublist
      (List.sublist_cons_self p rest))]
    case hm =>
      intro q hq
      simp only [List.mem_append, List.mem_singleton, not_or]
      refine ⟨hnm q (List.mem_cons_of_mem p hq), ?_⟩
      intro hqp
      rw [hqp] at hq
      exact (List.rel_of_pairwise_cons hnd hq) rfl
    simp only [LoadAcc.mk.injEq, List.append_assoc, List.singleton_append]
    refine ⟨trivial, ?_, trivial⟩
    funext q
    by_cases hq : q = p
    · subst hq
      simp only [if_pos rfl, List.contains_cons, beq_self_eq_true, Bool.true_or]
      cases acc.status q <;> cases statusW q <;> simp
    · simp only [if_neg hq, List.contains_cons]
      have : (q == p) = false := by
        simp only [beq_eq_false_iff_ne, ne_eq]
        exact hq
      rw [this]
      simp

theorem loadFinish_accGood (acc : LoadAcc) (name : String) (completed : Bool)
    (hacc : accGood acc) (hs : pyStrip name = name)
    (hcf : completed = false → pyEndsWith name "#" = false ∧
      (pyStartsWith name "\x7b" && pyEndsWith name "\x7d") = false) :
    accGood (loadFinish acc name completed) := by
  obtain ⟨hnd, hleg, hgood⟩ := hacc
  by_cases hne : name = ""
  · simp only [loadFinish, if_pos hne]
    exact ⟨hnd, hleg, hgood⟩
  · simp only [loadFinish, if_neg hne]
    by_cases hcont : acc.packages.contains name = true
    · rw [if_pos hcont]
      refine ⟨hnd, hleg, ?_⟩
      intro p hp
      obtain ⟨h1, h2, h3, h4⟩ := hgood p hp
      by_cases hpn : p = name
      · subst hpn
        refine ⟨h1, h2, ?_, ?_⟩
        · intro hh
          simp [h3 hh]
        · intro hh
          simp [h4 hh]
      · refine ⟨h1, h2, ?_, ?_⟩
        · intro hh
          simp only [if_neg hpn]
          exact h3 hh
        · intro hh
          simp only [if_neg hpn]
          exact h4 hh
    · rw [if_neg hcont]
      have hnm : name ∉ acc.packages := fun hmem =>
        hcont (List.elem_iff.mpr hmem)
      refine ⟨?_, hleg, ?_⟩
      · rw [List.nodup_append]
        exact ⟨hnd, List.nodup_singleton name, by
          intro a ha hb
          rw [List.mem_singleton.mp hb] at ha
          exact hnm ha⟩
      · intro p hp
        rcases List.mem_append.mp hp with hp | hp
        · obtain ⟨h1, h2, h3, h4⟩ := hgood p hp
          have hpn : p ≠ name := fun hEq => hnm (hEq ▸ hp)
          refine ⟨h1, h2, ?_, ?_⟩
          · intro hh
            simp only [if_neg hpn]
            exact h3 hh
          · intro hh
            simp only [if_neg hpn]
            exact h4 hh
        · rw [List.mem_singleton.mp hp]
          refine ⟨hne, hs, ?_, ?_⟩
          · intro hh
            cases hc : completed with
            | true => simp [hc]
            | false =>
              rw [(hcf hc).1] at hh
              exact Bool.noConfusion hh
          · intro hh
            cases hc : completed with
            | true => simp [hc]
            | false =>
              rw [(hcf hc).2] at hh
              exact Bool.noConfusion hh

theorem foldl_loadLine_accGood :
    ∀ (lines : List String) (acc : LoadAcc),
      (∀ raw ∈ lines,
        (pyStartsWith (pyStrip raw) "\x7b" && pyEndsWith (pyStrip raw) "\x7d") = false) →
      accGood acc → accGood (lines.foldl loadLine acc) := by
  intro lines
  induction lines with
  | nil => intro acc _ h; exact h
  | cons raw rest ih =>
    intro acc hpl hacc
    simp only [List.foldl_cons]
    refine ih _ (fun r hr => hpl r (List.mem_cons_of_mem raw hr)) ?_
    rw [loadLine_eq_plain acc raw (hpl raw (List.mem_cons_self raw rest))]
    split
    · exact hacc
    · split
      · exact loadFinish_accGood acc _ true hacc (pyStrip_idem _)
          (fun h => Bool.noConfusion h)
      · next hnh =>
        exact loadFinish_accGood acc _ false hacc (pyStrip_idem _)
          (fun _ => ⟨Bool.eq_false_iff.mpr hnh, hpl raw (List.mem_cons_self raw rest)⟩)

/-! ### Association-list lemmas for the metadata round trip -/

theorem alGet_cons {α : Type} (a : String × α) (m : List (String × α)) (k : String) :
    alGet (a :: m) k = if (a.1 == k) = true then some a.2 else alGet m k := by
  unfold alGet
  by_cases h : (a.1 == k) = true
  · rw [List.find?_cons_of_pos (p := fun kv : String × α => kv.1 == k) _ h, if_pos h]
    rfl
  · rw [List.find?_cons_of_neg (p := fun kv : String × α => kv.1 == k) _ h, if_neg h]

theorem alGet_none_forall {α : Type} (m : List (String × α)) (k : String)
    (h : alGet m k = none) : ∀ kv ∈ m, (kv.1 == k) = false := by
  intro kv hkv
  unfold alGet at h
  rw [Option.map_eq_none'] at h
  exact Bool.eq_false_iff.mpr (List.find?_eq_none.mp h kv hkv)

theorem alGet_eq_none_of_not_mem_keys {α : Type} (m : List (String × α)) (k : String)
    (h : k ∉ m.map (fun kv => kv.1)) : alGet m k = none := by
  unfold alGet
  rw [List.find?_eq_none.mpr]
  · rfl
  · intro kv hkv hbeq
    exact h (List.mem_map.mpr ⟨kv, hkv, by simpa using hbeq⟩)

theorem alGet_append_left_none {α : Type} (m0 m1 : List (String × α)) (k : String)
    (h : alGet m0 k = none) : alGet (m0 ++ m1) k = alGet m1 k := by
  induction m0 with
  | nil => rfl
  | cons a rest ih =>
    rw [alGet_cons] at h
    rw [List.cons_append, alGet_cons]
    by_cases ha : (a.1 == k) = true
    · rw [if_pos ha] at h
      exact absurd h (by simp)
    · rw [if_neg ha] at h
      rw [if_neg ha]
      exact ih h

theorem alSet_fresh {α : Type} (m : List (String × α)) (k : String) (v : α)
    (h : alGet m k = none) : alSet m k v = m ++ [(k, v)] := by
  have hf : m.find? (fun kv => kv.1 == k) = none := by
    unfold alGet at h
    exact Option.map_eq_none'.mp h
  simp [alSet, hf]

theorem alSet_cons_of_neg {α : Type} (a : String × α) (m : List (String × α)) (k : String)
    (v : α) (ha : (a.1 == k) = false) : alSet (a :: m) k v = a :: alSet m k v := by
  unfold alSet
  rw [List.find?_cons_of_neg (p := fun kv : String × α => kv.1 == k) _ (by simp [ha])]
  cases hf : m.find? (fun kv => kv.1 == k) with
  | none => simp
  | some w =>
    have hne : a.1 ≠ k := by simpa using ha
    simp [ha, hne]

theorem alSet_append_left_none {α : Type} (m0 m1 : List (String × α)) (k : String) (v : α)
    (h : alGet m0 k = none) : alSet (m0 ++ m1) k v = m0 ++ alSet m1 k v := by
  induction m0 with
  | nil => rfl
  | cons a rest ih =>
    rw [alGet_cons] at h
    by_cases ha : (a.1 == k) = true
    · rw [if_pos ha] at h
      exact absurd h (by simp)
    · rw [if_neg ha] at h
      have ha' : (a.1 == k) = false := Bool.eq_false_iff.mpr ha
      rw [List.cons_append, alSet_cons_of_neg a _ k v ha', ih h, List.cons_append]

theorem alGet_map_self {α : Type} (P : List String) (g : String → α) (p : String) :
    alGet (P.map (fun q => (q, g q))) p = if p ∈ P then some (g p) else none := by
  induction P with
  | nil => simp [alGet]
  | cons q rest ih =>
    rw [List.map_cons, alGet_cons]
    by_cases hq : (q == p) = true
    · have heq : q = p := by simpa using hq
      subst heq
      rw [if_pos hq, if_pos (List.mem_cons_self q rest)]
    · have hne : q ≠ p := by simpa using hq
      rw [if_neg hq, ih]
      by_cases hp : p ∈ rest
      · rw [if_pos hp, if_pos (List.mem_cons_of_mem q hp)]
      · rw [if_neg hp, if_neg ?_]
        intro hm
        rcases List.mem_cons.mp hm with h1 | h1
        · exact hne h1.symm
        · exact hp h1

/-! ### `_write_meta_from_tasks` on package-grouped task lists -/

theorem metaInsert_append_left_none (m0 m1 : List (String × MetaEntry)) (t : BuildTask)
    (h : alGet m0 t.display_name = none) :
    metaInsert (m0 ++ m1) t = m0 ++ metaInsert m1 t := by
  unfold metaInsert
  rw [alGet_append_left_none m0 m1 _ h]
  cases hg : alGet m1 t.display_name with
  | none => rw [List.append_assoc]
  | some e => exact alSet_append_left_none m0 m1 _ _ h

theorem foldl_metaInsert_append_left (ts : List BuildTask) :
    ∀ (m0 m1 : List (String × MetaEntry)),
      (∀ t ∈ ts, alGet m0 t.display_name = none) →
      ts.foldl metaInsert (m0 ++ m1) = m0 ++ ts.foldl metaInsert m1 := by
  induction ts with
  | nil => intro m0 m1 _; rfl
  | cons t rest ih =>
    intro m0 m1 hn
    simp only [List.foldl_cons]
    rw [metaInsert_append_left_none m0 m1 t (hn t (List.mem_cons_self t rest))]
    exact ih m0 _ (fun u hu => hn u (List.mem_cons_of_mem t hu))

theorem metaInsert_singleton_self (pkg bp : String) (acc : List (String × List String))
    (k : String) (e : List String) :
    metaInsert [(pkg, ⟨bp, acc⟩)] ⟨pkg, bp, k, e⟩ = [(pkg, ⟨bp, alSet acc k e⟩)] := by
  simp [metaInsert, alGet, alSet, List.find?_cons]

theorem foldl_metaInsert_block (pkg bp : String) :
    ∀ (rest acc : List (String × List String)),
      (((acc ++ rest).map (fun kv => kv.1)).Nodup) →
      (blockTasks pkg bp rest).foldl metaInsert [(pkg, ⟨bp, acc⟩)] = [(pkg, ⟨bp, acc ++ rest⟩)] := by
  intro rest
  induction rest with
  | nil => intro acc _; simp [blockTasks]
  | cons ke rest ih =>
    intro acc hnd
    have hkn : ke.1 ∉ acc.map (fun kv => kv.1) := by
      have hnd2 := hnd
      rw [List.map_append, List.nodup_append] at hnd2
      obtain ⟨h1, h2, hdisj⟩ := hnd2
      intro hmem
      exact hdisj hmem (by simp)
    simp only [blockTasks, List.map_cons, List.foldl_cons]
    rw [metaInsert_singleton_self pkg bp acc ke.1 ke.2]
    rw [alSet_fresh acc ke.1 ke.2 (alGet_eq_none_of_not_mem_keys acc ke.1 hkn)]
    rw [List.append_cons] at hnd
    have hstep := ih (acc ++ [ke]) hnd
    simp only [blockTasks] at hstep
    rw [List.append_cons acc ke rest]
    simpa using hstep

theorem writeMeta_block (pkg bp : String) (ks : List (String × List String))
    (hne : ks ≠ []) (hnd : (ks.map (fun kv => kv.1)).Nodup) :
    (blockTasks pkg bp ks).foldl metaInsert [] = [(pkg, ⟨bp, ks⟩)] := by
  cases ks with
  | nil => exact absurd rfl hne
  | cons ke rest =>
    simp only [blockTasks, List.map_cons, List.foldl_cons]
    have h0 : metaInsert [] ⟨pkg, bp, ke.1, ke.2⟩ = [(pkg, ⟨bp, [(ke.1, ke.2)]⟩)] := by
      simp [metaInsert, alGet]
    rw [h0]
    have hstep := foldl_metaInsert_block pkg bp rest [(ke.1, ke.2)] (by simpa using hnd)
    simp only [blockTasks] at hstep
    simpa using hstep

theorem blockTasks_name (pkg bp : String) (ks : List (String × List String))
    (t : BuildTask) (ht : t ∈ blockTasks pkg bp ks) : t.display_name = pkg := by
  simp only [blockTasks, List.mem_map] at ht
  obtain ⟨kv, _, hkv⟩ := ht
  rw [← hkv]

theorem writeMeta_blocks (BP : String → String) (KS : String → List (String × List String)) :
    ∀ (P : List String), P.Nodup →
      (∀ pkg ∈ P, KS pkg ≠ [] ∧ ((KS pkg).map (fun kv => kv.1)).Nodup) →
      writeMetaFromTasks (P.flatMap (fun pkg => blockTasks pkg (BP pkg) (KS pkg))) =
        P.map (fun pkg => (pkg, ⟨BP pkg, KS pkg⟩)) := by
  intro P
  induction P with
  | nil => intro _ _; rfl
  | cons pkg P ih =>
    intro hnd hks
    simp only [List.flatMap_cons, List.map_cons]
    unfold writeMetaFromTasks
    rw [List.foldl_append]
    obtain ⟨hkne, hknd⟩ := hks pkg (List.mem_cons_self pkg P)
    rw [writeMeta_block pkg (BP pkg) (KS pkg) hkne hknd]
    have hfresh : ∀ t ∈ P.flatMap (fun q => blockTasks q (BP q) (KS q)),
        alGet [(pkg, (⟨BP pkg, KS pkg⟩ : MetaEntry))] t.display_name = none := by
      intro t ht
      obtain ⟨q, hq, htq⟩ := List.mem_flatMap.mp ht
      have hname : t.display_name = q := blockTasks_name q (BP q) (KS q) t htq
      have hqne : q ≠ pkg := by
        intro hEq
        rw [hEq] at hq
        exact (List.rel_of_pairwise_cons hnd hq) rfl
      rw [alGet_cons, if_neg ?_]
      · rfl
      · simp [hname, Ne.symm hqne]
    have hsplit := foldl_metaInsert_append_left
      (P.flatMap (fun q => blockTasks q (BP q) (KS q)))
      [(pkg, (⟨BP pkg, KS pkg⟩ : MetaEntry))] [] hfresh
    rw [List.append_nil] at hsplit
    rw [hsplit]
    have hrec := ih (List.Nodup.of_cons hnd) (fun q hq => hks q (List.mem_cons_of_mem pkg hq))
    unfold writeMetaFromTasks at hrec
    rw [hrec]
    rfl

theorem blockTasks_pairwise (pkg bp : String) (ks : List (String × List String))
    (hnd : (ks.map (fun kv => kv.1)).Nodup) :
    (blockTasks pkg bp ks).Pairwise (fun a b => taskIdKey a ≠ taskIdKey b) := by
  unfold blockTasks
  rw [List.pairwise_map]
  have hp := (List.pairwise_map (R := (fun a b : String => a ≠ b))).mp hnd
  exact hp.imp (fun hne hEq => hne (congrArg Prod.snd hEq))

theorem flatMap_blocks_pairwise (BP : String → String) (KS : String → List (String × List String)) :
    ∀ (P : List String), P.Nodup →
      (∀ pkg ∈ P, ((KS pkg).map (fun kv => kv.1)).Nodup) →
      (P.flatMap (fun pkg => blockTasks pkg (BP pkg) (KS pkg))).Pairwise
        (fun a b => taskIdKey a ≠ taskIdKey b) := by
  intro P
  induction P with
  | nil => intro _ _; exact List.Pairwise.nil
  | cons pkg P ih =>
    intro hnd hks
    simp only [List.flatMap_cons]
    rw [List.pairwise_append]
    refine ⟨blockTasks_pairwise pkg (BP pkg) (KS pkg) (hks pkg (List.mem_cons_self pkg P)),
      ih (List.Nodup.of_cons hnd) (fun q hq => hks q (List.mem_cons_of_mem pkg hq)), ?_⟩
    intro a ha b hb
    have hna : a.display_name = pkg := blockTasks_name pkg (BP pkg) (KS pkg) a ha
    obtain ⟨q, hq, hbq⟩ := List.mem_flatMap.mp hb
    have hnb : b.display_name = q := blockTasks_name q (BP q) (KS q) b hbq
    have hqq : pkg ≠ q := List.rel_of_pairwise_cons hnd hq
    intro hEq
    apply hqq
    rw [← hna, ← hnb]
    exact congrArg Prod.fst hEq

theorem addNewNames_of_mem (tasks : List BuildTask) :
    ∀ (order : List String), (∀ t ∈ tasks, t.display_name ∈ order) →
      addNewNames order tasks = order := by
  induction tasks with
  | nil => intro order _; rfl
  | cons t rest ih =>
    intro order h
    have hc : order.contains t.display_name = true :=
      List.elem_iff.mpr (h t (List.mem_cons_self t rest))
    unfold addNewNames
    simp only [List.foldl_cons]
    rw [if_pos hc]
    exact ih order (fun u hu => h u (List.mem_cons_of_mem t hu))

theorem recomputeOrder_eq (order : List String) (tasks : List BuildTask)
    (h1 : ∀ t ∈ tasks, t.display_name ∈ order)
    (h2 : ∀ pkg ∈ order, tasks.any (fun t => t.display_name == pkg) = true) :
    recomputeOrder order tasks = order := by
  unfold recomputeOrder
  rw [addNewNames_of_mem tasks order h1]
  exact List.filter_eq_self.mpr h2

theorem flatMap_congr_mem {α β : Type} (l : List α) (f g : α → List β)
    (h : ∀ x ∈ l, f x = g x) : l.flatMap f = l.flatMap g := by
  induction l with
  | nil => rfl
  | cons a t ih =>
    simp only [List.flatMap_cons]
    rw [h a (List.mem_cons_self a t), ih (fun x hx => h x (List.mem_cons_of_mem a hx))]

theorem map_congr_mem {α β : Type} (l : List α) (f g : α → β)
    (h : ∀ x ∈ l, f x = g x) : l.map f = l.map g := by
  induction l with
  | nil => rfl
  | cons a t ih =>
    simp only [List.map_cons]
    rw [h a (List.mem_cons_self a t), ih (fun x hx => h x (List.mem_cons_of_mem a hx))]

/-! ### `tasksForPkg` as a package block -/

theorem tasksForPkg_eq_block (meta : List (String × PyVal)) (canon : String → String)
    (codeDir pkg : String) :
    tasksForPkg meta canon codeDir pkg =
      blockTasks pkg (canon (pkgBaseRaw meta codeDir pkg)) (pkgKinds meta pkg) := by
  simp only [tasksForPkg, pkgBaseRaw, pkgKinds, blockTasks]
  cases hinfo : (alGet meta pkg).getD (PyVal.obj []) with
  | s v => rfl
  | i v => rfl
  | b v => rfl
  | null => rfl
  | arr xs => rfl
  | obj es =>
    dsimp only
    cases hks : alGet es "kinds" with
    | none => rfl
    | some kv =>
      cases kv with
      | s v => rfl
      | i v => rfl
      | b v => rfl
      | null => rfl
      | arr xs => rfl
      | obj ks =>
        dsimp only
        cases ks with
        | nil => rfl
        | cons k0 kt => simp [List.map_map]

theorem pkgKinds_ne_nil (meta : List (String × PyVal)) (pkg : String) :
    pkgKinds meta pkg ≠ [] := by
  simp only [pkgKinds]
  cases hinfo : (alGet meta pkg).getD (PyVal.obj []) with
  | s v => simp
  | i v => simp
  | b v => simp
  | null => simp
  | arr xs => simp
  | obj es =>
    dsimp only
    cases hks : alGet es "kinds" with
    | none => simp
    | some kv =>
      cases kv with
      | s v => simp
      | i v => simp
      | b v => simp
      | null => simp
      | arr xs => simp
      | obj ks =>
        dsimp only
        cases ks with
        | nil => simp
        | cons k0 kt => simp

theorem keysNodup_nodup {α : Type} (es : List (String × α)) (h : keysNodup es = true) :
    (es.map (fun kv => kv.1)).Nodup := by
  induction es with
  | nil => exact List.nodup_nil
  | cons kv rest ih =>
    simp only [keysNodup, Bool.and_eq_true] at h
    obtain ⟨h1, h2⟩ := h
    simp only [List.map_cons, List.nodup_cons]
    refine ⟨?_, ih h2⟩
    intro hmem
    rw [Bool.not_eq_eq_eq_not, Bool.not_true] at h1
    have h1x : (List.map (fun kw => kw.1) rest).contains kv.1 = true :=
      List.elem_iff.mpr hmem
    rw [h1x] at h1
    exact Bool.noConfusion h1

theorem pyValEntriesKeysNodup_get (es : List (String × PyVal)) (k : String) (v : PyVal)
    (h : pyValEntriesKeysNodup es = true) (hget : alGet es k = some v) :
    pyValKeysNodup v = true := by
  induction es with
  | nil => exact absurd hget (by simp [alGet])
  | cons kv rest ih =>
    simp only [pyValEntriesKeysNodup, Bool.and_eq_true] at h
    rw [alGet_cons] at hget
    by_cases hk : (kv.1 == k) = true
    · rw [if_pos hk] at hget
      exact (Option.some.inj hget) ▸ h.1
    · rw [if_neg hk] at hget
      exact ih h.2 hget

theorem pkgKinds_keys_nodup (meta : List (String × PyVal)) (pkg : String)
    (h : pyValEntriesKeysNodup meta = true) :
    ((pkgKinds meta pkg).map (fun kv => kv.1)).Nodup := by
  simp only [pkgKinds]
  cases hget : alGet meta pkg with
  | none => simp [alGet]
  | some v =>
    have hv : pyValKeysNodup v = true := pyValEntriesKeysNodup_get meta pkg v h hget
    cases v with
    | s w => simp
    | i w => simp
    | b w => simp
    | null => simp
    | arr xs => simp
    | obj es =>
      simp only [Option.getD_some]
      cases hks : alGet es "kinds" with
      | none => simp
      | some kv =>
        cases kv with
        | s w => simp
        | i w => simp
        | b w => simp
        | null => simp
        | arr xs => simp
        | obj ks =>
          dsimp only
          have hks2 : pyValKeysNodup (.obj ks) = true := by
            simp only [pyValKeysNodup, Bool.and_eq_true] at hv
            exact pyValEntriesKeysNodup_get es "kinds" _ hv.2 hks
          simp only [pyValKeysNodup, Bool.and_eq_true] at hks2
          cases ks with
          | nil => simp
          | cons k0 kt =>
            have hnd := keysNodup_nodup _ hks2.1
            simpa [List.map_map] using hnd

/-! ### Re-reading the written metadata file -/

theorem map_pyStr_s (es : List String) : (es.map PyVal.s).map pyStr = es := by
  induction es with
  | nil => rfl
  | cons a t ih =>
    simp only [List.map_cons, ih]
    rfl

theorem kindsJ_roundtrip (l : List (String × List String)) :
    (l.map (fun kv => (kv.1, PyVal.obj [("extra_args", PyVal.arr (kv.2.map PyVal.s))]))).map
      (fun kv => (kv.1, taskExtraOf kv.2)) = l := by
  induction l with
  | nil => rfl
  | cons a t ih =>
    simp only [List.map_cons, ih]
    have hx : taskExtraOf (PyVal.obj [("extra_args", PyVal.arr (a.2.map PyVal.s))]) =
        (a.2.map PyVal.s).map pyStr := rfl
    rw [hx, map_pyStr_s]

theorem pkgBaseRaw_of_get (meta2 : List (String × PyVal)) (codeDir pkg bp : String)
    (ks : List (String × List String))
    (hget : alGet meta2 pkg = some (metaEntryToPyVal ⟨bp, ks⟩))
    (hbp : bp ≠ "") :
    pkgBaseRaw meta2 codeDir pkg = bp := by
  simp only [pkgBaseRaw, hget, Option.getD_some, metaEntryToPyVal]
  have hsv : strGetOrEmpty [("path", PyVal.s bp),
      ("kinds", PyVal.obj (ks.map (fun kv =>
        (kv.1, PyVal.obj [("extra_args", PyVal.arr (kv.2.map PyVal.s))]))))] "path" = bp := by
    simp [strGetOrEmpty, alGet, PyVal.truthy, hbp, pyStr]
  rw [hsv, if_pos hbp]

theorem pkgKinds_of_get (meta2 : List (String × PyVal)) (pkg bp : String)
    (ks : List (String × List String))
    (hget : alGet meta2 pkg = some (metaEntryToPyVal ⟨bp, ks⟩))
    (hks : ks ≠ []) :
    pkgKinds meta2 pkg = ks := by
  simp only [pkgKinds, hget, Option.getD_some, metaEntryToPyVal]
  have hkg : alGet [("path", PyVal.s bp),
      ("kinds", PyVal.obj (ks.map (fun kv =>
        (kv.1, PyVal.obj [("extra_args", PyVal.arr (kv.2.map PyVal.s))]))))] "kinds" =
      some (PyVal.obj (ks.map (fun kv =>
        (kv.1, PyVal.obj [("extra_args", PyVal.arr (kv.2.map PyVal.s))])))) := rfl
  rw [hkg]
  dsimp only
  cases ks with
  | nil => exact absurd rfl hks
  | cons k0 kt =>
    rw [if_neg (by simp)]
    exact kindsJ_roundtrip (k0 :: kt)

theorem tasksForPkg_roundtrip (meta2 : List (String × PyVal)) (canon : String → String)
    (codeDir pkg bp : String) (ks : List (String × List String))
    (hget : alGet meta2 pkg = some (metaEntryToPyVal ⟨bp, ks⟩))
    (hbp : bp ≠ "") (hcfix : canon bp = bp) (hks : ks ≠ []) :
    tasksForPkg meta2 canon codeDir pkg = blockTasks pkg bp ks := by
  rw [tasksForPkg_eq_block, pkgBaseRaw_of_get meta2 codeDir pkg bp ks hget hbp,
    pkgKinds_of_get meta2 pkg bp ks hget hks, hcfix]

/-! ### Load/save characterizations for the idempotence proof -/

theorem loadState_of_legacy_nil (canon : String → String) (codeDir : String)
    (lines : List String) (metaJ : Option PyVal)
    (hleg : (lines.foldl loadLine ⟨[], fun _ => false, []⟩).legacy = []) :
    loadState canon codeDir lines metaJ =
      ⟨(lines.foldl loadLine ⟨[], fun _ => false, []⟩).packages,
       (lines.foldl loadLine ⟨[], fun _ => false, []⟩).status,
       (lines.foldl loadLine ⟨[], fun _ => false, []⟩).packages.flatMap
         (fun pkg => tasksForPkg (readMetaFile metaJ) canon codeDir pkg)⟩ := by
  simp only [loadState]
  rw [hleg]
  simp only [List.foldl_nil]

theorem saveFiles_blocks (P : List String) (St : String → Bool)
    (BPf : String → String) (KSf : String → List (String × List String))
    (hPnd : P.Nodup)
    (hne : ∀ pkg, KSf pkg ≠ [])
    (hnd : ∀ pkg, ((KSf pkg).map (fun kv => kv.1)).Nodup) :
    saveFiles ⟨P, St, P.flatMap (fun pkg => blockTasks pkg (BPf pkg) (KSf pkg))⟩ =
      ⟨writeQueueLines P (fun pkg => if P.contains pkg then St pkg else false),
       P.map (fun pkg => (pkg, ⟨BPf pkg, KSf pkg⟩))⟩ := by
  have hded : dedupTasks (P.flatMap (fun pkg => blockTasks pkg (BPf pkg) (KSf pkg))) =
      P.flatMap (fun pkg => blockTasks pkg (BPf pkg) (KSf pkg)) :=
    dedupTasks_eq_self _ (flatMap_blocks_pairwise BPf KSf P hPnd (fun pkg _ => hnd pkg))
  have hord : recomputeOrder P (P.flatMap (fun pkg => blockTasks pkg (BPf pkg) (KSf pkg))) = P := by
    refine recomputeOrder_eq P _ ?_ ?_
    · intro t ht
      obtain ⟨q, hq, htq⟩ := List.mem_flatMap.mp ht
      rw [blockTasks_name q (BPf q) (KSf q) t htq]
      exact hq
    · intro pkg hp
      obtain ⟨k0, kt, hK⟩ : ∃ k0 kt, KSf pkg = k0 :: kt := by
        cases hK : KSf pkg with
        | nil => exact absurd hK (hne pkg)
        | cons a b => exact ⟨a, b, rfl⟩
      refine List.any_eq_true.mpr ⟨⟨pkg, BPf pkg, k0.1, k0.2⟩, ?_, by simp⟩
      refine List.mem_flatMap.mpr ⟨pkg, hp, ?_⟩
      rw [hK]
      simp [blockTasks]
  simp only [saveFiles, saveQueue]
  rw [hded, hord]
  rw [writeMeta_blocks BPf KSf P hPnd (fun pkg _ => ⟨hne pkg, hnd pkg⟩)]

theorem loadState_written (canon : String → String) (codeDir : String)
    (P : List String) (St : String → Bool)
    (BPf : String → String) (KSf : String → List (String × List String))
    (hPnd : P.Nodup) (hser : ∀ p ∈ P, serializedGood p St)
    (hBPne : ∀ pkg, BPf pkg ≠ "") (hBPfix : ∀ pkg, canon (BPf pkg) = BPf pkg)
    (hne : ∀ pkg, KSf pkg ≠ []) :
    loadState canon codeDir (writeQueueLines P St)
        (some (writtenMetaToPyVal (P.map (fun pkg => (pkg, ⟨BPf pkg, KSf pkg⟩))))) =
      ⟨P, fun q => St q && P.contains q,
       P.flatMap (fun pkg => blockTasks pkg (BPf pkg) (KSf pkg))⟩ := by
  have hwq : writeQueueLines P St = P.map (fun p => p ++ (if St p then "#" else "")) := rfl
  have hfold := foldl_loadLine_written St P ⟨[], fun _ => false, []⟩ hser
    (fun p hp => List.not_mem_nil p) hPnd
  have hleg2 : ((writeQueueLines P St).foldl loadLine ⟨[], fun _ => false, []⟩).legacy = [] := by
    rw [hwq, hfold]
  rw [loadState_of_legacy_nil canon codeDir _ _ hleg2]
  rw [hwq, hfold]
  have hmeta2 : readMetaFile (some (writtenMetaToPyVal
      (P.map (fun pkg => (pkg, (⟨BPf pkg, KSf pkg⟩ : MetaEntry)))))) =
      P.map (fun pkg => (pkg, metaEntryToPyVal ⟨BPf pkg, KSf pkg⟩)) := by
    show (P.map (fun pkg => (pkg, (⟨BPf pkg, KSf pkg⟩ : MetaEntry)))).map
        (fun kv => (kv.1, metaEntryToPyVal kv.2)) =
      P.map (fun pkg => (pkg, metaEntryToPyVal ⟨BPf pkg, KSf pkg⟩))
    rw [List.map_map]
    rfl
  rw [hmeta2]
  have htasks : ∀ pkg ∈ P,
      tasksForPkg (P.map (fun q => (q, metaEntryToPyVal ⟨BPf q, KSf q⟩))) canon codeDir pkg =
        blockTasks pkg (BPf pkg) (KSf pkg) := by
    intro pkg hp
    refine tasksForPkg_roundtrip _ canon codeDir pkg (BPf pkg) (KSf pkg) ?_
      (hBPne pkg) (hBPfix pkg) (hne pkg)
    rw [alGet_map_self P (fun q => metaEntryToPyVal ⟨BPf q, KSf q⟩) pkg, if_pos hp]
  simp only [LoadedState.mk.injEq]
  refine ⟨by simp, ?_, ?_⟩
  · funext q
    simp
  · simp only [List.nil_append]
    exact flatMap_congr_mem P _ _ htasks

/-- C3 (amended): save-after-load is idempotent on well-formed stores.
When every queue line is in the plain `name[#]` format (no line is a
JSON object literal after stripping), every object nested in the
metadata JSON has duplicate-free keys, and the path canonicalisation is
idempotent and never returns the empty string, then re-loading the two
files written by a load-save round and saving again writes byte-identical
files. (The unconditional claim is refuted by `C3_counterexample`.) -/
theorem C3_amended (canon : String → String) (codeDir : String)
    (lines0 : List String) (metaJ0 : Option PyVal)
    (hplain : ∀ raw ∈ lines0,
      (pyStartsWith (pyStrip raw) "\x7b" && pyEndsWith (pyStrip raw) "\x7d") = false)
    (hmeta : pyValEntriesKeysNodup (readMetaFile metaJ0) = true)
    (hcanon : ∀ x, canon (canon x) = canon x)
    (hcanonne : ∀ x, canon x ≠ "") :
    roundTripFiles canon codeDir (roundTrip canon codeDir lines0 metaJ0) =
      roundTrip canon codeDir lines0 metaJ0 := by
  rcases hfoldEq : lines0.foldl loadLine ⟨[], fun _ => false, []⟩ with ⟨P, S, leg⟩
  have hgood := foldl_loadLine_accGood lines0 ⟨[], fun _ => false, []⟩ hplain
    ⟨List.nodup_nil, rfl, fun p hp => absurd hp (List.not_mem_nil p)⟩
  rw [hfoldEq] at hgood
  obtain ⟨hPnd, hleg, hser⟩ := hgood
  subst hleg
  have hload1 : loadState canon codeDir lines0 metaJ0 =
      ⟨P, S, P.flatMap (fun pkg => tasksForPkg (readMetaFile metaJ0) canon codeDir pkg)⟩ := by
    rw [loadState_of_legacy_nil canon codeDir lines0 metaJ0 (by rw [hfoldEq]), hfoldEq]
  have hT1 : P.flatMap (fun pkg => tasksForPkg (readMetaFile metaJ0) canon codeDir pkg) =
      P.flatMap (fun pkg => blockTasks pkg
        (canon (pkgBaseRaw (readMetaFile metaJ0) codeDir pkg))
        (pkgKinds (readMetaFile metaJ0) pkg)) :=
    flatMap_congr_mem P _ _
      (fun pkg _ => tasksForPkg_eq_block (readMetaFile metaJ0) canon codeDir pkg)
  have hsave1 : roundTrip canon codeDir lines0 metaJ0 =
      ⟨writeQueueLines P (fun pkg => if P.contains pkg then S pkg else false),
       P.map (fun pkg => (pkg, ⟨canon (pkgBaseRaw (readMetaFile metaJ0) codeDir pkg),
         pkgKinds (readMetaFile metaJ0) pkg⟩))⟩ := by
    unfold roundTrip
    rw [hload1, hT1]
    exact saveFiles_blocks P S _ _ hPnd (fun pkg => pkgKinds_ne_nil _ pkg)
      (fun pkg => pkgKinds_keys_nodup _ pkg hmeta)
  have hser2 : ∀ p ∈ P, serializedGood p (fun pkg => if P.contains pkg then S pkg else false) := by
    intro p hp
    obtain ⟨h1, h2, h3, h4⟩ := hser p hp
    have hc : P.contains p = true := List.elem_iff.mpr hp
    refine ⟨h1, h2, fun hh => ?_, fun hh => ?_⟩
    · show (if P.contains p = true then S p else false) = true
      rw [if_pos hc]
      exact h3 hh
    · show (if P.contains p = true then S p else false) = true
      rw [if_pos hc]
      exact h4 hh
  have hload2 := loadState_written canon codeDir P
    (fun pkg => if P.contains pkg then S pkg else false)
    (fun pkg => canon (pkgBaseRaw (readMetaFile metaJ0) codeDir pkg))
    (fun pkg => pkgKinds (readMetaFile metaJ0) pkg)
    hPnd hser2 (fun pkg => hcanonne _) (fun pkg => hcanon _)
    (fun pkg => pkgKinds_ne_nil _ pkg)
  have hsave2 := saveFiles_blocks P
    (fun q => (if P.contains q then S q else false) && P.contains q)
    (fun pkg => canon (pkgBaseRaw (readMetaFile metaJ0) codeDir pkg))
    (fun pkg => pkgKinds (readMetaFile metaJ0) pkg)
    hPnd (fun pkg => pkgKinds_ne_nil _ pkg) (fun pkg => pkgKinds_keys_nodup _ pkg hmeta)
  rw [hsave1]
  unfold roundTripFiles roundTrip
  rw [show (⟨writeQueueLines P (fun pkg => if P.contains pkg then S pkg else false),
      P.map (fun pkg => (pkg, ⟨canon (pkgBaseRaw (readMetaFile metaJ0) codeDir pkg),
        pkgKinds (readMetaFile metaJ0) pkg⟩))⟩ : QueueFiles).queueLines =
    writeQueueLines P (fun pkg => if P.contains pkg then S pkg else false) from rfl]
  rw [show (⟨writeQueueLines P (fun pkg => if P.contains pkg then S pkg else false),
      P.map (fun pkg => (pkg, ⟨canon (pkgBaseRaw (readMetaFile metaJ0) codeDir pkg),
        pkgKinds (readMetaFile metaJ0) pkg⟩))⟩ : QueueFiles).meta =
    P.map (fun pkg => (pkg, ⟨canon (pkgBaseRaw (readMetaFile metaJ0) codeDir pkg),
        pkgKinds (readMetaFile metaJ0) pkg⟩)) from rfl]
  rw [hload2, hsave2]
  simp only [QueueFiles.mk.injEq]
  refine ⟨?_, trivial⟩
  exact map_congr_mem P _ _ (fun p hp => by
    have hc : P.contains p = true := List.elem_iff.mpr hp
    simp [hc, hp])

/-- Closed instance of `C3_amended`: a store with plain queue lines
`a` and `b#`, an empty metadata object, and a canonicalisation that is
idempotent and never empty. -/
theorem C3_witness :
    roundTripFiles (fun s => if s = "" then "/" else s) "/code"
        (roundTrip (fun s => if s = "" then "/" else s) "/code" ["a", "b#"]
          (some (.obj []))) =
      roundTrip (fun s => if s = "" then "/" else s) "/code" ["a", "b#"]
        (some (.obj [])) :=
  C3_amended (fun s => if s = "" then "/" else s) "/code" ["a", "b#"] (some (.obj []))
    (by decide) rfl
    (fun x => by
      by_cases h : x = ""
      · subst h
        rfl
      · simp [h])
    (fun x => by
      by_cases h : x = ""
      · subst h
        simp
      · simp [h])

end Agiros
